import Mathlib

/-! protodump: the descriptor renderer of `pkg/proto/proto.go`

A shallow embedding of the renderer.  The renderer's receiver
(`ProtoDefinition`) is passed explicitly; a function of the source that can
stop with a run-time panic (a negative `strings.Repeat` count, a call through
a nil descriptor) returns `Option ProtoDefinition`, `none` being the panic.
The descriptor values of `protoreflect` are read-only records holding what the
accessors used by the renderer return.
-/

namespace Protodump

/-! ## Descriptor model (the accessors of `protoreflect` the renderer calls) -/

/-- Values of `protoreflect.Cardinality`. -/
inductive Cardinality where
  | optional
  | required
  | repeated
deriving DecidableEq, Repr

/-- Text of `Cardinality.String()`. -/
def Cardinality.toString : Cardinality → String
  | .optional => "optional"
  | .required => "required"
  | .repeated => "repeated"

/-- Scalar accessors of a `protoreflect.FieldDescriptor`:
`Name()`, `Index()`, `Number()`, `Kind().String()`, `Cardinality()`,
`HasOptionalKeyword()`, `ContainingOneof()` (`none` is nil, otherwise the
name of the oneof) and `Message()` (`none` is nil, otherwise its `Name()`). -/
structure FieldInfo where
  name : String
  index : Int
  number : Int
  kind : String
  cardinality : Cardinality
  hasOptionalKeyword : Bool
  containingOneof : Option String
  message : Option String
deriving DecidableEq, Repr

/-- A `protoreflect.FieldDescriptor`: its scalar accessors together with
`MapKey()` and `MapValue()` (`none` is nil). -/
inductive FieldDescriptor where
  | mk (info : FieldInfo) (mapKey mapValue : Option FieldDescriptor)

/-- Scalar accessors of a field. -/
def FieldDescriptor.info : FieldDescriptor → FieldInfo
  | .mk i _ _ => i

/-- Accessor `MapKey()`. -/
def FieldDescriptor.mapKey : FieldDescriptor → Option FieldDescriptor
  | .mk _ k _ => k

/-- Accessor `MapValue()`. -/
def FieldDescriptor.mapValue : FieldDescriptor → Option FieldDescriptor
  | .mk _ _ v => v

/-- A `protoreflect.OneofDescriptor`: `Name()` and `Fields()`. -/
structure OneofDescriptor where
  name : String
  fields : List FieldDescriptor

/-- A `protoreflect.MessageDescriptor`: `Name()`, `ReservedNames()`,
`ReservedRanges()` (pairs of field numbers as the descriptor stores them,
start inclusive and end exclusive), `Fields()` and `Oneofs()`. -/
structure MessageDescriptor where
  name : String
  reservedNames : List String
  reservedRanges : List (Int × Int)
  fields : List FieldDescriptor
  oneofs : List OneofDescriptor

/-- A `protoreflect.EnumValueDescriptor`: `Name()` and `Number()`. -/
structure EnumValueDescriptor where
  name : String
  number : Int
deriving DecidableEq, Repr

/-- A `protoreflect.EnumDescriptor`: `Name()` and `Values()`. -/
structure EnumDescriptor where
  name : String
  values : List EnumValueDescriptor
deriving DecidableEq, Repr

/-- A `protoreflect.MethodDescriptor`: `Name()`, `Input().Name()`,
`Output().Name()`, `IsStreamingClient()` and `IsStreamingServer()`. -/
structure MethodDescriptor where
  name : String
  inputName : String
  outputName : String
  isStreamingClient : Bool
  isStreamingServer : Bool
deriving DecidableEq, Repr

/-- A `protoreflect.ServiceDescriptor`: `Name()` and `Methods()`. -/
structure ServiceDescriptor where
  name : String
  methods : List MethodDescriptor
deriving DecidableEq, Repr

/-- A `protoreflect.FileImport`: `Path()` and the `IsPublic` flag. -/
structure FileImport where
  path : String
  isPublic : Bool
deriving DecidableEq, Repr

/-- A `protoreflect.FileDescriptor`: `Syntax().String()` (field `dialect`),
`Package()` (the full name), `Path()`, `Imports()`, `Services()`,
`Messages()` and `Enums()`. -/
structure FileDescriptor where
  dialect : String
  package : String
  path : String
  imports : List FileImport
  services : List ServiceDescriptor
  messages : List MessageDescriptor
  enums : List EnumDescriptor

/-! ## Renderer state -/

/-- The receiver of the renderer (`type ProtoDefinition struct`): the text
buffer, the indentation counter, the descriptor and the file name. -/
structure ProtoDefinition where
  builder : String
  indendation : Int
  descriptor : FileDescriptor
  filename : String

/-! ## Go library functions used by the renderer -/

/-- Concatenation of a list of strings, left to right. -/
def concat : List String → String
  | [] => ""
  | s :: rest => s ++ concat rest

/-- Go `strings.Repeat(s, count)`: panics (`none`) on a negative count. -/
def stringsRepeat (s : String) (count : Int) : Option String :=
  if count < 0 then none else some (concat (List.replicate count.toNat s))

/-- Go `strconv.Itoa` and `fmt.Sprintf("%d", n)`: signed decimal text. -/
def formatInt : Int → String
  | Int.ofNat m => Nat.repr m
  | Int.negSucc m => "-" ++ Nat.repr (m + 1)

/-- Go conversion `string(n)` of an integer: the one-character string of code
point `n`, or U+FFFD when `n` is not a valid code point. -/
def runeToString (n : Int) : String :=
  if 0 ≤ n ∧ n.toNat.isValidChar then String.singleton (Char.ofNat n.toNat)
  else "\uFFFD"

/-- Go `FullName.Name()`: the text after the last `.`, or the whole name. -/
def fullNameName (n : String) : String :=
  String.mk (n.data.reverse.takeWhile (fun c => c != '.')).reverse

/-! ## The renderer (`pkg/proto/proto.go`) -/

/-- Source `indent`. -/
def indent (pd : ProtoDefinition) : ProtoDefinition :=
  { pd with indendation := pd.indendation + 1 }

/-- Source `dedent`. -/
def dedent (pd : ProtoDefinition) : ProtoDefinition :=
  { pd with indendation := pd.indendation - 1 }

/-- Source `write`. -/
def write (pd : ProtoDefinition) (s : String) : ProtoDefinition :=
  { pd with builder := pd.builder ++ s }

/-- Source `writeIndented`. -/
def writeIndented (pd : ProtoDefinition) (s : String) : Option ProtoDefinition :=
  match stringsRepeat "    " pd.indendation with
  | none => none
  | some r => some (write (write pd r) s)

/-- Source `String`. -/
def ProtoDefinition.String (pd : ProtoDefinition) := pd.builder

/-- A Go loop `for i := 0; i < xs.Len(); i++ { body(xs.Get(i)) }` whose body
may panic. -/
def forEach {α : Type} (body : ProtoDefinition → α → Option ProtoDefinition) :
    List α → ProtoDefinition → Option ProtoDefinition
  | [], pd => some pd
  | x :: rest, pd =>
    match body pd x with
    | none => none
    | some pd1 => forEach body rest pd1

/-- Source `writeMethod`. -/
def writeMethod (pd : ProtoDefinition) (method : MethodDescriptor) : Option ProtoDefinition :=
  match writeIndented pd "rpc " with
  | none => none
  | some pd =>
    let pd := write pd method.name
    let pd := write pd "("
    let pd := if method.isStreamingClient then write pd "streaming " else pd
    let pd := write pd method.inputName
    let pd := write pd ") returns ("
    let pd := if method.isStreamingServer then write pd "streaming " else pd
    let pd := write pd method.outputName
    some (write pd ") \x7b\x7d\n")

/-- Source `writeService`. -/
def writeService (pd : ProtoDefinition) (service : ServiceDescriptor) : Option ProtoDefinition :=
  let pd := write pd "service "
  let pd := write pd service.name
  let pd := write pd " \x7b\n"
  let pd := indent pd
  match forEach writeMethod service.methods pd with
  | none => none
  | some pd =>
    let pd := dedent pd
    writeIndented pd "\x7d\n\n"

/-- Source `writeType`. -/
def writeType (pd : ProtoDefinition) : FieldDescriptor → Option ProtoDefinition
  | .mk info mapKey mapValue =>
    if info.kind = "message" then
      match info.message with
      | none => none
      | some name => some (write pd name)
    else if info.kind = "map" then
      let pd := write pd "map<"
      match mapKey with
      | none => none
      | some key =>
        match writeType pd key with
        | none => none
        | some pd =>
          let pd := write pd ", "
          match mapValue with
          | none => none
          | some value =>
            match writeType pd value with
            | none => none
            | some pd => some (write pd ">")
    else some (write pd info.kind)

/-- Source `writeField`. -/
def writeField (pd : ProtoDefinition) (field : FieldDescriptor) : Option ProtoDefinition :=
  match writeIndented pd "" with
  | none => none
  | some pd =>
    let pd :=
      if field.info.hasOptionalKeyword then write pd "optional "
      else if field.info.cardinality.toString = "repeated" then write pd "repeated "
      else pd
    match writeType pd field with
    | none => none
    | some pd =>
      let pd := write pd " "
      let pd := write pd field.info.name
      let pd := write pd " = "
      let pd := write pd (formatInt field.info.index)
      some (write pd ";\n")

/-- Source `writeOneof`. -/
def writeOneof (pd : ProtoDefinition) (oneof : OneofDescriptor) : Option ProtoDefinition :=
  match writeIndented pd "" with
  | none => none
  | some pd =>
    let pd := write pd "oneof "
    let pd := write pd oneof.name
    let pd := write pd " \x7b\n"
    let pd := indent pd
    match forEach writeField oneof.fields pd with
    | none => none
    | some pd =>
      let pd := dedent pd
      writeIndented pd "\x7d\n"

/-- Body of the loop over `enum.Values()` in source `writeEnum`. -/
def writeEnumValue (pd : ProtoDefinition) (value : EnumValueDescriptor) : Option ProtoDefinition :=
  match writeIndented pd value.name with
  | none => none
  | some pd =>
    let pd := write pd " = "
    let pd := write pd (formatInt value.number)
    some (write pd ";\n")

/-- Source `writeEnum`. -/
def writeEnum (pd : ProtoDefinition) (enum : EnumDescriptor) : Option ProtoDefinition :=
  let pd := write pd "enum "
  let pd := write pd enum.name
  let pd := write pd " \x7b\n"
  let pd := indent pd
  match forEach writeEnumValue enum.values pd with
  | none => none
  | some pd =>
    let pd := dedent pd
    writeIndented pd "\x7d\n\n"

/-- Body of the loop over `message.ReservedNames()` in source `writeMessage`. -/
def writeReservedName (pd : ProtoDefinition) (name : String) : Option ProtoDefinition :=
  match writeIndented pd "reserved " with
  | none => none
  | some pd =>
    let pd := write pd name
    some (write pd ";\n")

/-- Body of the loop over `message.ReservedRanges()` in source `writeMessage`. -/
def writeReservedRange (pd : ProtoDefinition) (reservedRange : Int × Int) :
    Option ProtoDefinition :=
  match writeIndented pd "reserved " with
  | none => none
  | some pd =>
    let pd :=
      if reservedRange.1 = reservedRange.2 then
        write pd (runeToString reservedRange.1)
      else
        let reservedRange :=
          if reservedRange.1 > reservedRange.2 then (reservedRange.2, reservedRange.1)
          else reservedRange
        let pd := write pd (formatInt reservedRange.1)
        let pd := write pd " to "
        write pd (formatInt reservedRange.2)
    some (write pd ";\n")

/-- Body of the loop over `message.Fields()` in source `writeMessage`. -/
def writeMessageField (pd : ProtoDefinition) (field : FieldDescriptor) : Option ProtoDefinition :=
  if field.info.containingOneof = none then writeField pd field else some pd

/-- Source `writeMessage`. -/
def writeMessage (pd : ProtoDefinition) (message : MessageDescriptor) : Option ProtoDefinition :=
  let pd := write pd "message "
  let pd := write pd message.name
  let pd := write pd " \x7b\n"
  let pd := indent pd
  match forEach writeReservedName message.reservedNames pd with
  | none => none
  | some pd =>
    match forEach writeReservedRange message.reservedRanges pd with
    | none => none
    | some pd =>
      match forEach writeMessageField message.fields pd with
      | none => none
      | some pd =>
        match forEach writeOneof message.oneofs pd with
        | none => none
        | some pd =>
          let pd := dedent pd
          writeIndented pd "\x7d\n\n"

/-- Source `writeImport`. -/
def writeImport (pd : ProtoDefinition) (fileImport : FileImport) : ProtoDefinition :=
  let pd := write pd "import "
  let pd := if fileImport.isPublic then write pd "public " else pd
  let pd := write pd "\""
  let pd := write pd fileImport.path
  write pd "\";\n"

/-- Source `writeFileDescriptor`. -/
def writeFileDescriptor (pd : ProtoDefinition) : Option ProtoDefinition :=
  let pd := write pd "syntax = \""
  let pd := write pd pd.descriptor.dialect
  let pd := write pd "\"\n\n"
  let pd := write pd "package "
  let pd := write pd (fullNameName pd.descriptor.package)
  let pd := write pd ";\n\n"
  let pd := pd.descriptor.imports.foldl writeImport pd
  let pd := if pd.descriptor.imports.length > 0 then write pd "\n" else pd
  match forEach writeService pd.descriptor.services pd with
  | none => none
  | some pd =>
    match forEach writeMessage pd.descriptor.messages pd with
    | none => none
    | some pd => forEach writeEnum pd.descriptor.enums pd

/-! ## Sample descriptors -/

/-- The empty file descriptor, used as the descriptor of sample states. -/
def emptyFile : FileDescriptor :=
  { dialect := "proto3", package := "", path := "", imports := [], services := [],
    messages := [], enums := [] }

/-- A renderer state with the given buffer and depth. -/
def stateAt (builder : String) (depth : Int) : ProtoDefinition :=
  { builder := builder, indendation := depth, descriptor := emptyFile, filename := "" }

/-- A singular field of scalar kind outside every oneof. -/
def scalarField (name kind : String) (index number : Int) : FieldDescriptor :=
  .mk { name := name, index := index, number := number, kind := kind,
        cardinality := .optional, hasOptionalKeyword := false,
        containingOneof := none, message := none } none none

/-- A message with two fields outside every oneof whose declared numbers (7
and 3) differ from their positions (0 and 1). -/
def numberedMessage : MessageDescriptor :=
  { name := "M", reservedNames := [], reservedRanges := [],
    fields := [scalarField "x" "int32" 0 7, scalarField "y" "string" 1 3], oneofs := [] }

/-- The message `Point` with `x` (int32, number 1) and `y` (int32, number 2). -/
def pointMessage : MessageDescriptor :=
  { name := "Point", reservedNames := [], reservedRanges := [],
    fields := [scalarField "x" "int32" 0 1, scalarField "y" "int32" 1 2], oneofs := [] }

/-- A message whose only content is the given reserved ranges. -/
def reservingMessage (ranges : List (Int × Int)) : MessageDescriptor :=
  { name := "M", reservedNames := [], reservedRanges := ranges, fields := [], oneofs := [] }

/-- The synthetic oneof `_x` of the proto3 field `optional int32 x = 1;`: its
sole member `x` carries the explicit-optional flag and has `_x` as containing
oneof. -/
def syntheticOneof : OneofDescriptor :=
  { name := "_x",
    fields := [
      .mk { name := "x", index := 0, number := 1, kind := "int32",
            cardinality := .optional, hasOptionalKeyword := true,
            containingOneof := some "_x", message := none } none none] }

/-- A oneof `choice` with members `a` (string, number 1) and `b` (int32,
number 2), neither explicit-optional nor repeated. -/
def plainOneof : OneofDescriptor :=
  { name := "choice",
    fields := [
      .mk { name := "a", index := 0, number := 1, kind := "string",
            cardinality := .optional, hasOptionalKeyword := false,
            containingOneof := some "choice", message := none } none none,
      .mk { name := "b", index := 1, number := 2, kind := "int32",
            cardinality := .optional, hasOptionalKeyword := false,
            containingOneof := some "choice", message := none } none none] }

/-! ## Texts used to state what the renderer appends -/

/-- The indentation text at depth `d`: four spaces per level. -/
def ind (d : Int) : String := concat (List.replicate d.toNat "    ")

/-- The text `writeType` appends for a field, `none` when `writeType` panics
(a nil `Message()`, `MapKey()` or `MapValue()` where one is needed). -/
def typeName : FieldDescriptor → Option String
  | .mk info mapKey mapValue =>
    if info.kind = "message" then info.message
    else if info.kind = "map" then
      match mapKey with
      | none => none
      | some key =>
        match typeName key with
        | none => none
        | some k =>
          match mapValue with
          | none => none
          | some value =>
            match typeName value with
            | none => none
            | some v => some ("map<" ++ k ++ ", " ++ v ++ ">")
    else some info.kind

/-- The modifier keyword `writeField` puts before the type name. -/
def modifierText (field : FieldDescriptor) : String :=
  if field.info.hasOptionalKeyword then "optional "
  else if field.info.cardinality = Cardinality.repeated then "repeated "
  else ""

/-- The line `writeField` appends after the indentation, for a field whose
type name resolves. -/
def fieldText (field : FieldDescriptor) : String :=
  modifierText field ++ (typeName field).getD "" ++ " " ++ field.info.name ++ " = " ++
    formatInt field.info.index ++ ";\n"

/-- The text `writeReservedRange` appends after the indentation. -/
def rangeText (r : Int × Int) : String :=
  "reserved " ++
    (if r.1 = r.2 then runeToString r.1
     else formatInt (min r.1 r.2) ++ " to " ++ formatInt (max r.1 r.2)) ++ ";\n"

/-- The block `writeOneof` appends at depth `d`, for a oneof whose member
types resolve. -/
def oneofText (d : Int) (oneof : OneofDescriptor) : String :=
  ind d ++ "oneof " ++ oneof.name ++ " \x7b\n" ++
    concat (oneof.fields.map (fun f => ind (d + 1) ++ fieldText f)) ++ ind d ++ "\x7d\n"

/-- The fields of a message that `writeMessage` prints directly: those with
no containing oneof, in declaration order. -/
def directFields (m : MessageDescriptor) : List FieldDescriptor :=
  m.fields.filter (fun f => f.info.containingOneof.isNone)

/-- The block `writeMessage` appends when started at depth `d`, for a message
whose printed fields all have a type name that resolves. -/
def messageText (d : Int) (m : MessageDescriptor) : String :=
  "message " ++ m.name ++ " \x7b\n" ++
    concat (m.reservedNames.map (fun n => ind (d + 1) ++ "reserved " ++ n ++ ";\n")) ++
    concat (m.reservedRanges.map (fun r => ind (d + 1) ++ rangeText r)) ++
    concat ((directFields m).map (fun f => ind (d + 1) ++ fieldText f)) ++
    concat (m.oneofs.map (oneofText (d + 1))) ++ ind d ++ "\x7d\n\n"

/-- Every field the renderer prints for a message has a type name that
resolves: the fields outside oneofs and the members of the oneofs. -/
def MessageDescriptor.Resolves (m : MessageDescriptor) : Prop :=
  (∀ f ∈ m.fields, f.info.containingOneof = none → typeName f ≠ none) ∧
  (∀ o ∈ m.oneofs, ∀ f ∈ o.fields, typeName f ≠ none)

/-- The line `writeImport` appends. -/
def importText (fileImport : FileImport) : String :=
  "import " ++ (if fileImport.isPublic then "public " else "") ++ "\"" ++ fileImport.path ++
    "\";\n"

/-- The line `writeMethod` appends at depth `d`. -/
def methodText (d : Int) (method : MethodDescriptor) : String :=
  ind d ++ "rpc " ++ method.name ++ "(" ++
    (if method.isStreamingClient then "streaming " else "") ++ method.inputName ++
    ") returns (" ++ (if method.isStreamingServer then "streaming " else "") ++
    method.outputName ++ ") \x7b\x7d\n"

/-- The block `writeService` appends when started at depth `d`. -/
def serviceText (d : Int) (service : ServiceDescriptor) : String :=
  "service " ++ service.name ++ " \x7b\n" ++ concat (service.methods.map (methodText (d + 1))) ++
    ind d ++ "\x7d\n\n"

/-- The block `writeEnum` appends when started at depth `d`. -/
def enumText (d : Int) (enum : EnumDescriptor) : String :=
  "enum " ++ enum.name ++ " \x7b\n" ++
    concat (enum.values.map (fun v => ind (d + 1) ++ v.name ++ " = " ++ formatInt v.number ++
      ";\n")) ++ ind d ++ "\x7d\n\n"

/-- The header `writeFileDescriptor` appends first: the syntax declaration and
the package declaration, each followed by a blank line. -/
def headerText (fd : FileDescriptor) : String :=
  "syntax = \"" ++ fd.dialect ++ "\"\n\n" ++ "package " ++ fullNameName fd.package ++ ";\n\n"

/-- The document `writeFileDescriptor` appends when started at depth `d`, for
a file whose printed fields all have a type name that resolves. -/
def fileText (d : Int) (fd : FileDescriptor) : String :=
  headerText fd ++ concat (fd.imports.map importText) ++
    (if fd.imports.length > 0 then "\n" else "") ++
    concat (fd.services.map (serviceText d)) ++ concat (fd.messages.map (messageText d)) ++
    concat (fd.enums.map (enumText d))

/-- A field of a descriptor graph: a field of kind `message` has a referenced
message, and a field of kind `map` has a key field and a value field that are
fields of a descriptor graph themselves. -/
def FieldDescriptor.wellFormed : FieldDescriptor → Bool
  | .mk info mapKey mapValue =>
    if info.kind = "message" then info.message.isSome
    else if info.kind = "map" then
      (match mapKey with
        | none => false
        | some key => key.wellFormed) &&
      (match mapValue with
        | none => false
        | some value => value.wellFormed)
    else true

/-- A message of a descriptor graph: its fields and the members of its oneofs
are fields of a descriptor graph. -/
def MessageDescriptor.WellFormed (m : MessageDescriptor) : Prop :=
  (∀ f ∈ m.fields, f.wellFormed = true) ∧
  (∀ o ∈ m.oneofs, ∀ f ∈ o.fields, f.wellFormed = true)

/-- A file of a descriptor graph: all its messages are. -/
def FileDescriptor.WellFormed (fd : FileDescriptor) : Prop :=
  ∀ m ∈ fd.messages, m.WellFormed

/-- The renderer state `NewFromDescriptor` builds for a descriptor: empty
buffer, depth 0, and the descriptor's declared path as file name. -/
def freshState (descriptor : FileDescriptor) : ProtoDefinition :=
  { builder := "", indendation := 0, descriptor := descriptor, filename := descriptor.path }

/-- Source `NewFromDescriptor`.  The descriptor builder of `protodesc`
(`FileOptions{AllowUnresolvable: true}.New` against an empty registry) is the
parameter `newFile`; an error is its message.  The result is `some (.error e)`
for a returned error, `some (.ok pd)` for a returned definition and `none`
for a panic while rendering. -/
def NewFromDescriptor {Proto : Type} (newFile : Proto → Except String FileDescriptor)
    (pb : Proto) : Option (Except String ProtoDefinition) :=
  match newFile pb with
  | .error err => some (.error ("Couldn't create FileDescriptor: " ++ err))
  | .ok descriptor =>
    let pd : ProtoDefinition :=
      { builder := "", indendation := 0, descriptor := descriptor, filename := descriptor.path }
    match writeFileDescriptor pd with
    | none => none
    | some pd => some (.ok pd)

/-- Source `NewFromBytes`.  The decoder `proto.Unmarshal` is the parameter
`unmarshal`. -/
def NewFromBytes {Payload Proto : Type} (unmarshal : Payload → Except String Proto)
    (newFile : Proto → Except String FileDescriptor) (payload : Payload) :
    Option (Except String ProtoDefinition) :=
  match unmarshal payload with
  | .error err => some (.error ("Couldn't unmarshal proto: " ++ err))
  | .ok pb => NewFromDescriptor newFile pb

/-- A message whose only content is the given reserved names. -/
def namingMessage (names : List String) : MessageDescriptor :=
  { name := "M", reservedNames := names, reservedRanges := [], fields := [], oneofs := [] }

/-- The message `Msg` whose two fields `a` (string, number 1) and `b` (int32,
number 2) are the members of its oneof `choice`. -/
def choiceMessage : MessageDescriptor :=
  { name := "Msg", reservedNames := [], reservedRanges := [],
    fields := plainOneof.fields, oneofs := [plainOneof] }

/-- The message `Msg` whose only field is the proto3 field
`optional int32 x = 1;`, a member of the synthetic oneof `_x`. -/
def optionalFieldMessage : MessageDescriptor :=
  { name := "Msg", reservedNames := [], reservedRanges := [],
    fields := syntheticOneof.fields, oneofs := [syntheticOneof] }

/-- The map field `map<string, Point> points = 1;` as a descriptor holds it:
kind text `message`, repeated, the entry message `PointsEntry` as `Message()`,
and the key and value fields of the entry. -/
def pointsMapField : FieldDescriptor :=
  .mk { name := "points", index := 0, number := 1, kind := "message",
        cardinality := .repeated, hasOptionalKeyword := false,
        containingOneof := none, message := some "PointsEntry" }
    (some (scalarField "key" "string" 0 1))
    (some (.mk { name := "value", index := 1, number := 2, kind := "message",
                 cardinality := .optional, hasOptionalKeyword := false,
                 containingOneof := none, message := some "Point" } none none))

/-- The file `point.proto`: package `pkg`, a public and a plain import, the
service `S`, the messages `Point` and `Msg` and the enum `Color`. -/
def pointFile : FileDescriptor :=
  { dialect := "proto3", package := "pkg", path := "point.proto",
    imports := [{ path := "other.proto", isPublic := true },
                { path := "google/protobuf/empty.proto", isPublic := false }],
    services := [{ name := "S", methods := [{ name := "M", inputName := "In", outputName := "Out",
                                              isStreamingClient := false,
                                              isStreamingServer := true }] }],
    messages := [pointMessage, choiceMessage],
    enums := [{ name := "Color", values := [{ name := "RED", number := 0 },
                                           { name := "GREEN", number := 1 }] }] }

/-- A field of the oneof `choice`, neither explicit-optional nor repeated. -/
def choiceField (name kind : String) (index number : Int) : FieldDescriptor :=
  .mk { name := name, index := index, number := number, kind := kind,
        cardinality := .optional, hasOptionalKeyword := false,
        containingOneof := some "choice", message := none } none none

/-- A map field from `string` to the message `Point`, outside every oneof. -/
def mapField (name : String) (index number : Int) : FieldDescriptor :=
  .mk { name := name, index := index, number := number, kind := "map",
        cardinality := .repeated, hasOptionalKeyword := false,
        containingOneof := none, message := none }
    (some (scalarField "key" "string" 0 1))
    (some (.mk { name := "value", index := 1, number := 2, kind := "message",
                 cardinality := .optional, hasOptionalKeyword := false,
                 containingOneof := none, message := some "Point" } none none))

/-- A message with a reserved name, a reserved range stored high-to-low, a
field `z` outside every oneof and a oneof `choice` with members `a` and `b`. -/
def mixedMessage : MessageDescriptor :=
  { name := "Q", reservedNames := ["foo"], reservedRanges := [(3, 1)],
    fields := [scalarField "z" "bool" 0 1, choiceField "a" "string" 1 2,
               choiceField "b" "int32" 2 3],
    oneofs := [{ name := "choice",
                 fields := [choiceField "a" "string" 1 2, choiceField "b" "int32" 2 3] }] }

/-- A file with package `foo.pkg`, a public and a plain import, one service,
two messages and one enum. -/
def sampleFile : FileDescriptor :=
  { dialect := "proto3", package := "foo.pkg", path := "a.proto",
    imports := [{ path := "x.proto", isPublic := true }, { path := "y.proto", isPublic := false }],
    services := [{ name := "S", methods := [{ name := "M", inputName := "In", outputName := "Out",
                                              isStreamingClient := true,
                                              isStreamingServer := false }] }],
    messages := [pointMessage, mixedMessage],
    enums := [{ name := "Color", values := [{ name := "RED", number := 0 },
                                           { name := "GREEN", number := 1 }] }] }

/-- A file without imports whose only message has a map field. -/
def mapFile : FileDescriptor :=
  { dialect := "proto3", package := "pkg", path := "m.proto", imports := [], services := [],
    messages := [{ name := "Holder", reservedNames := [], reservedRanges := [],
                   fields := [mapField "points" 0 1], oneofs := [] }],
    enums := [] }

/-- The Go loop `for i := 0; i < xs.Len(); i++ { body(xs.Get(i)) }` with its
index kept: it runs from index `i`, and `Get(i)` on an index out of bounds is
a panic (`none`). -/
def forIndex {α : Type} (body : ProtoDefinition → α → Option ProtoDefinition)
    (xs : List α) (i : Nat) (pd : ProtoDefinition) : Option ProtoDefinition :=
  if i < xs.length then
    match xs.get? i with
    | none => none
    | some x =>
      match body pd x with
      | none => none
      | some pd1 => forIndex body xs (i + 1) pd1
  else some pd
termination_by xs.length - i

/-- A sample decoder: the empty payload does not decode, the payload `bad`
decodes to a structure the descriptor builder rejects, and every other payload
decodes to the name of the sample file. -/
def sampleUnmarshal (payload : String) : Except String String :=
  if payload = "" then .error "unexpected EOF"
  else if payload = "bad" then .ok "unbuildable"
  else .ok "sample"

/-- A sample descriptor builder: it rejects the structure `unbuildable` and
builds the sample file from any other. -/
def sampleNewFile (pb : String) : Except String FileDescriptor :=
  if pb = "unbuildable" then .error "invalid structure" else .ok sampleFile

/-! ## The renderer with a record of the indentation counter

The same traversal as above, on a state that also records every value the
indentation counter takes.  Only `indent` and `dedent` change the counter, so
only the functions of the source that call them are repeated here; every other
step runs the function above unchanged. -/

/-- A renderer state together with the values the indentation counter has
taken so far, the latest first. -/
structure Traced where
  pd : ProtoDefinition
  seen : List Int

/-- The recorded state at the start of a run. -/
def Traced.start (pd : ProtoDefinition) : Traced :=
  { pd := pd, seen := [pd.indendation] }

/-- Source `indent`, recording the new value of the counter. -/
def indentT (t : Traced) : Traced :=
  { pd := indent t.pd, seen := (indent t.pd).indendation :: t.seen }

/-- Source `dedent`, recording the new value of the counter. -/
def dedentT (t : Traced) : Traced :=
  { pd := dedent t.pd, seen := (dedent t.pd).indendation :: t.seen }

/-- A step that calls neither `indent` nor `dedent`: it runs on the renderer
state and leaves the record as it is. -/
def stepT (f : ProtoDefinition → Option ProtoDefinition) (t : Traced) : Option Traced :=
  match f t.pd with
  | none => none
  | some pd => some { pd := pd, seen := t.seen }

/-- The loop `forEach` on recorded states. -/
def forEachT {α : Type} (body : Traced → α → Option Traced) :
    List α → Traced → Option Traced
  | [], t => some t
  | x :: rest, t =>
    match body t x with
    | none => none
    | some t1 => forEachT body rest t1

/-- Source `writeService` on recorded states. -/
def writeServiceT (t : Traced) (service : ServiceDescriptor) : Option Traced :=
  let t : Traced :=
    { pd := write (write (write t.pd "service ") service.name) " \x7b\n", seen := t.seen }
  let t := indentT t
  match forEachT (fun t method => stepT (fun pd => writeMethod pd method) t) service.methods t with
  | none => none
  | some t =>
    let t := dedentT t
    stepT (fun pd => writeIndented pd "\x7d\n\n") t

/-- Source `writeOneof` on recorded states. -/
def writeOneofT (t : Traced) (oneof : OneofDescriptor) : Option Traced :=
  match stepT (fun pd => writeIndented pd "") t with
  | none => none
  | some t =>
    let t : Traced :=
      { pd := write (write (write t.pd "oneof ") oneof.name) " \x7b\n", seen := t.seen }
    let t := indentT t
    match forEachT (fun t field => stepT (fun pd => writeField pd field) t) oneof.fields t with
    | none => none
    | some t =>
      let t := dedentT t
      stepT (fun pd => writeIndented pd "\x7d\n") t

/-- Source `writeEnum` on recorded states. -/
def writeEnumT (t : Traced) (enum : EnumDescriptor) : Option Traced :=
  let t : Traced :=
    { pd := write (write (write t.pd "enum ") enum.name) " \x7b\n", seen := t.seen }
  let t := indentT t
  match forEachT (fun t value => stepT (fun pd => writeEnumValue pd value) t) enum.values t with
  | none => none
  | some t =>
    let t := dedentT t
    stepT (fun pd => writeIndented pd "\x7d\n\n") t

/-- Source `writeMessage` on recorded states. -/
def writeMessageT (t : Traced) (message : MessageDescriptor) : Option Traced :=
  let t : Traced :=
    { pd := write (write (write t.pd "message ") message.name) " \x7b\n", seen := t.seen }
  let t := indentT t
  match forEachT (fun t name => stepT (fun pd => writeReservedName pd name) t)
      message.reservedNames t with
  | none => none
  | some t =>
    match forEachT (fun t r => stepT (fun pd => writeReservedRange pd r) t)
        message.reservedRanges t with
    | none => none
    | some t =>
      match forEachT (fun t field => stepT (fun pd => writeMessageField pd field) t)
          message.fields t with
      | none => none
      | some t =>
        match forEachT writeOneofT message.oneofs t with
        | none => none
        | some t =>
          let t := dedentT t
          stepT (fun pd => writeIndented pd "\x7d\n\n") t

/-- Source `writeFileDescriptor` on recorded states. -/
def writeFileDescriptorT (t : Traced) : Option Traced :=
  match stepT (fun pd =>
      let pd := write pd "syntax = \""
      let pd := write pd pd.descriptor.dialect
      let pd := write pd "\"\n\n"
      let pd := write pd "package "
      let pd := write pd (fullNameName pd.descriptor.package)
      let pd := write pd ";\n\n"
      let pd := pd.descriptor.imports.foldl writeImport pd
      some (if pd.descriptor.imports.length > 0 then write pd "\n" else pd)) t with
  | none => none
  | some t =>
    match forEachT writeServiceT t.pd.descriptor.services t with
    | none => none
    | some t =>
      match forEachT writeMessageT t.pd.descriptor.messages t with
      | none => none
      | some t => forEachT writeEnumT t.pd.descriptor.enums t

/-- The recorded state `t1` continues `t` within `[lo, hi]`: the counter of
`t1` equals that of `t`, and every value recorded in `t1` was already recorded
in `t` or lies between `lo` and `hi`. -/
def Traced.Extends (lo hi : Int) (t t1 : Traced) : Prop :=
  t1.pd.indendation = t.pd.indendation ∧ ∀ v ∈ t1.seen, v ∈ t.seen ∨ (lo ≤ v ∧ v ≤ hi)

/-- The members of all oneofs of a message, oneof after oneof. -/
def oneofMembers (m : MessageDescriptor) : List FieldDescriptor :=
  (m.oneofs.map (fun o => o.fields)).flatten

/-- The fields of a message that have a containing oneof. -/
def oneofFields (m : MessageDescriptor) : List FieldDescriptor :=
  m.fields.filter (fun f => f.info.containingOneof.isSome)

/-! ## General lemmas -/

@[simp] theorem write_indendation (pd : ProtoDefinition) (s : String) :
    (write pd s).indendation = pd.indendation := rfl

@[simp] theorem write_builder (pd : ProtoDefinition) (s : String) :
    (write pd s).builder = pd.builder ++ s := rfl

theorem write_write (pd : ProtoDefinition) (a b : String) :
    write (write pd a) b = write pd (a ++ b) := by
  simp [write, String.append_assoc]

theorem write_empty (pd : ProtoDefinition) : write pd "" = pd := by
  simp [write]

theorem dedent_indent_write (pd : ProtoDefinition) (s : String) :
    dedent (write (indent pd) s) = write pd s := by
  simp [write, indent, dedent]

theorem stringsRepeat_of_nonneg (s : String) (d : Int) (h : 0 ≤ d) :
    stringsRepeat s d = some (concat (List.replicate d.toNat s)) := by
  simp [stringsRepeat, not_lt.mpr h]

theorem writeIndented_of_nonneg (pd : ProtoDefinition) (s : String)
    (h : 0 ≤ pd.indendation) :
    writeIndented pd s = some (write pd (ind pd.indendation ++ s)) := by
  simp [writeIndented, stringsRepeat_of_nonneg _ _ h, write_write, ind]

theorem forEach_lines {α : Type} (body : ProtoDefinition → α → Option ProtoDefinition)
    (line : α → String) (d : Int) (xs : List α)
    (h : ∀ x ∈ xs, ∀ pd : ProtoDefinition, pd.indendation = d →
      body pd x = some (write pd (line x))) :
    ∀ pd : ProtoDefinition, pd.indendation = d →
      forEach body xs pd = some (write pd (concat (xs.map line))) := by
  induction xs with
  | nil => intro pd _; simp [forEach, concat, write_empty]
  | cons x rest ih =>
    intro pd hd
    have hx := h x (List.mem_cons_self x rest) pd hd
    have hrest := ih (fun y hy => h y (List.mem_cons_of_mem x hy)) (write pd (line x)) hd
    simp [forEach, hx, hrest, concat, write_write]

theorem cardinality_toString_repeated (c : Cardinality) :
    c.toString = "repeated" ↔ c = Cardinality.repeated := by
  cases c <;> simp [Cardinality.toString]

set_option smartUnfolding false in
theorem writeType_mk (pd : ProtoDefinition) (info : FieldInfo)
    (mapKey mapValue : Option FieldDescriptor) :
    writeType pd (.mk info mapKey mapValue) =
      if info.kind = "message" then
        match info.message with
        | none => none
        | some name => some (write pd name)
      else if info.kind = "map" then
        match mapKey with
        | none => none
        | some key =>
          match writeType (write pd "map<") key with
          | none => none
          | some pd1 =>
            match mapValue with
            | none => none
            | some value =>
              match writeType (write pd1 ", ") value with
              | none => none
              | some pd2 => some (write pd2 ">")
      else some (write pd info.kind) := by
  cases mapKey <;> cases mapValue <;> rfl

set_option smartUnfolding false in
theorem typeName_mk (info : FieldInfo) (mapKey mapValue : Option FieldDescriptor) :
    typeName (.mk info mapKey mapValue) =
      if info.kind = "message" then info.message
      else if info.kind = "map" then
        match mapKey with
        | none => none
        | some key =>
          match typeName key with
          | none => none
          | some k =>
            match mapValue with
            | none => none
            | some value =>
              match typeName value with
              | none => none
              | some v => some ("map<" ++ k ++ ", " ++ v ++ ">")
      else some info.kind := by
  cases mapKey <;> cases mapValue <;> rfl

theorem writeType_eq : ∀ (field : FieldDescriptor) (pd : ProtoDefinition),
    writeType pd field = (typeName field).map (write pd)
  | .mk info none mv, pd => by
    rw [writeType_mk, typeName_mk]
    by_cases h1 : info.kind = "message"
    · cases hm : info.message <;> simp [h1, hm]
    · by_cases h2 : info.kind = "map" <;> simp [h1, h2]
  | .mk info (some key) none, pd => by
    rw [writeType_mk, typeName_mk]
    by_cases h1 : info.kind = "message"
    · cases hm : info.message <;> simp [h1, hm]
    · by_cases h2 : info.kind = "map"
      · simp only [h1, h2, if_true, if_false]
        rw [writeType_eq key]
        cases typeName key <;> simp
      · simp [h1, h2]
  | .mk info (some key) (some value), pd => by
    rw [writeType_mk, typeName_mk]
    by_cases h1 : info.kind = "message"
    · cases hm : info.message <;> simp [h1, hm]
    · by_cases h2 : info.kind = "map"
      · simp only [h1, h2, if_true, if_false]
        rw [writeType_eq key]
        cases typeName key with
        | none => simp
        | some k =>
          simp only [Option.map_some']
          rw [writeType_eq value]
          cases typeName value with
          | none => simp
          | some v => simp [write_write, String.append_assoc]
      · simp [h1, h2]

theorem writeField_of_typeName (pd : ProtoDefinition) (field : FieldDescriptor)
    (h : 0 ≤ pd.indendation) (ht : typeName field ≠ none) :
    writeField pd field = some (write pd (ind pd.indendation ++ fieldText field)) := by
  obtain ⟨t, ht⟩ := Option.ne_none_iff_exists'.mp ht
  unfold writeField
  rw [writeIndented_of_nonneg pd "" h]
  simp only [writeType_eq, ht, fieldText, modifierText, cardinality_toString_repeated]
  by_cases ho : field.info.hasOptionalKeyword = true
  · simp [ho, write_write, String.append_assoc]
  · by_cases hr : field.info.cardinality = Cardinality.repeated
    · simp [ho, hr, write_write, String.append_assoc]
    · simp [ho, hr, write_write, String.append_assoc]

theorem indent_write (pd : ProtoDefinition) (s : String) :
    indent (write pd s) = write (indent pd) s := rfl

theorem dedent_write (pd : ProtoDefinition) (s : String) :
    dedent (write pd s) = write (dedent pd) s := rfl

theorem dedent_indent (pd : ProtoDefinition) : dedent (indent pd) = pd := by
  simp [indent, dedent]

@[simp] theorem indent_indendation (pd : ProtoDefinition) :
    (indent pd).indendation = pd.indendation + 1 := rfl

theorem writeMethod_of_nonneg (pd : ProtoDefinition) (method : MethodDescriptor)
    (h : 0 ≤ pd.indendation) :
    writeMethod pd method = some (write pd (ind pd.indendation ++ "rpc " ++ method.name ++ "(" ++
      (if method.isStreamingClient = true then "streaming " else "") ++ method.inputName ++
      ") returns (" ++ (if method.isStreamingServer = true then "streaming " else "") ++
      method.outputName ++ ") \x7b\x7d\n")) := by
  unfold writeMethod
  rw [writeIndented_of_nonneg pd "rpc " h]
  cases method.isStreamingClient <;> cases method.isStreamingServer <;>
    simp [write_write, String.append_assoc]

theorem writeEnumValue_of_nonneg (pd : ProtoDefinition) (value : EnumValueDescriptor)
    (h : 0 ≤ pd.indendation) :
    writeEnumValue pd value = some (write pd (ind pd.indendation ++ value.name ++ " = " ++
      formatInt value.number ++ ";\n")) := by
  unfold writeEnumValue
  rw [writeIndented_of_nonneg pd value.name h]
  simp [write_write, String.append_assoc]

theorem writeEnum_of_nonneg (pd : ProtoDefinition) (enum : EnumDescriptor)
    (h : 0 ≤ pd.indendation) :
    writeEnum pd enum = some (write pd ("enum " ++ enum.name ++ " \x7b\n" ++
      concat (enum.values.map (fun v => ind (pd.indendation + 1) ++ v.name ++ " = " ++
        formatInt v.number ++ ";\n")) ++ ind pd.indendation ++ "\x7d\n\n")) := by
  have hloop := forEach_lines writeEnumValue
    (fun v => ind (pd.indendation + 1) ++ v.name ++ " = " ++ formatInt v.number ++ ";\n")
    (pd.indendation + 1) enum.values
    (fun v _ p hp => by rw [writeEnumValue_of_nonneg p v (by omega), hp])
    (indent (write (write (write pd "enum ") enum.name) " \x7b\n")) rfl
  simp only [writeEnum, hloop]
  rw [writeIndented_of_nonneg _ _ (by simpa [dedent, indent] using h)]
  simp [dedent_write, indent_write, dedent_indent, write_write, String.append_assoc]

theorem writeReservedName_of_nonneg (pd : ProtoDefinition) (name : String)
    (h : 0 ≤ pd.indendation) :
    writeReservedName pd name =
      some (write pd (ind pd.indendation ++ "reserved " ++ name ++ ";\n")) := by
  unfold writeReservedName
  rw [writeIndented_of_nonneg pd "reserved " h]
  simp [write_write, String.append_assoc]

theorem writeReservedRange_of_nonneg (pd : ProtoDefinition) (r : Int × Int)
    (h : 0 ≤ pd.indendation) :
    writeReservedRange pd r = some (write pd (ind pd.indendation ++ rangeText r)) := by
  unfold writeReservedRange
  rw [writeIndented_of_nonneg pd "reserved " h]
  by_cases he : r.1 = r.2
  · simp [he, rangeText, write_write, String.append_assoc]
  · by_cases hgt : r.1 > r.2
    · have hmin : min r.1 r.2 = r.2 := min_eq_right (le_of_lt hgt)
      have hmax : max r.1 r.2 = r.1 := max_eq_left (le_of_lt hgt)
      simp [he, hgt, rangeText, hmin, hmax, write_write, String.append_assoc]
    · have hle : r.1 ≤ r.2 := not_lt.mp hgt
      have hmin : min r.1 r.2 = r.1 := min_eq_left hle
      have hmax : max r.1 r.2 = r.2 := max_eq_right hle
      simp [he, hgt, rangeText, hmin, hmax, write_write, String.append_assoc]

theorem forEach_lines_at {α : Type} (body : ProtoDefinition → α → Option ProtoDefinition)
    (line : α → String) (pd0 : ProtoDefinition) (text : String) (xs : List α)
    (h : ∀ x ∈ xs, ∀ p : ProtoDefinition, p.indendation = pd0.indendation →
      body p x = some (write p (line x))) :
    forEach body xs (write pd0 text) = some (write pd0 (text ++ concat (xs.map line))) := by
  rw [forEach_lines body line pd0.indendation xs h (write pd0 text) rfl, write_write]

theorem writeOneof_of_resolves (pd : ProtoDefinition) (oneof : OneofDescriptor)
    (h : 0 ≤ pd.indendation) (hres : ∀ f ∈ oneof.fields, typeName f ≠ none) :
    writeOneof pd oneof = some (write pd (oneofText pd.indendation oneof)) := by
  have hfields : ∀ f ∈ oneof.fields, ∀ p : ProtoDefinition,
      p.indendation = (indent pd).indendation →
      writeField p f = some (write p (ind (pd.indendation + 1) ++ fieldText f)) :=
    fun f hf p hp => by
      rw [writeField_of_typeName p f (by rw [hp]; simp; omega) (hres f hf), hp]; rfl
  simp only [writeOneof, writeIndented_of_nonneg pd "" h, indent_write, write_write]
  rw [forEach_lines_at writeField _ (indent pd) _ oneof.fields hfields]
  simp only [dedent_write, dedent_indent]
  rw [writeIndented_of_nonneg _ _ (by simpa using h)]
  simp [oneofText, write_write, String.append_assoc]

theorem concat_map_filter {α : Type} (keep : α → Bool) (line : α → String) (xs : List α) :
    concat (xs.map (fun x => if keep x = true then line x else "")) =
      concat ((xs.filter keep).map line) := by
  induction xs with
  | nil => rfl
  | cons x rest ih =>
    by_cases hx : keep x = true
    · simp [List.filter, hx, concat, ih]
    · simp [List.filter, hx, concat, ih]

theorem writeMessageField_of_resolves (pd : ProtoDefinition) (field : FieldDescriptor)
    (h : 0 ≤ pd.indendation)
    (hres : field.info.containingOneof = none → typeName field ≠ none) :
    writeMessageField pd field = some (write pd
      (if field.info.containingOneof.isNone = true then ind pd.indendation ++ fieldText field
       else "")) := by
  unfold writeMessageField
  cases hc : field.info.containingOneof with
  | none => simp [writeField_of_typeName pd field h (hres hc)]
  | some o => simp [write_empty]

theorem writeMessage_of_resolves (pd : ProtoDefinition) (m : MessageDescriptor)
    (h : 0 ≤ pd.indendation) (hres : m.Resolves) :
    writeMessage pd m = some (write pd (messageText pd.indendation m)) := by
  have hd : ∀ p : ProtoDefinition, p.indendation = (indent pd).indendation →
      0 ≤ p.indendation := fun p hp => by rw [hp]; simp; omega
  have hnames : ∀ n ∈ m.reservedNames, ∀ p : ProtoDefinition,
      p.indendation = (indent pd).indendation →
      writeReservedName p n =
        some (write p (ind (pd.indendation + 1) ++ "reserved " ++ n ++ ";\n")) :=
    fun n _ p hp => by rw [writeReservedName_of_nonneg p n (hd p hp), hp]; rfl
  have hranges : ∀ r ∈ m.reservedRanges, ∀ p : ProtoDefinition,
      p.indendation = (indent pd).indendation →
      writeReservedRange p r = some (write p (ind (pd.indendation + 1) ++ rangeText r)) :=
    fun r _ p hp => by rw [writeReservedRange_of_nonneg p r (hd p hp), hp]; rfl
  have hfields : ∀ f ∈ m.fields, ∀ p : ProtoDefinition,
      p.indendation = (indent pd).indendation →
      writeMessageField p f = some (write p
        (if f.info.containingOneof.isNone = true then ind (pd.indendation + 1) ++ fieldText f
         else "")) :=
    fun f hf p hp => by
      rw [writeMessageField_of_resolves p f (hd p hp) (hres.1 f hf), hp]; rfl
  have honeofs : ∀ o ∈ m.oneofs, ∀ p : ProtoDefinition,
      p.indendation = (indent pd).indendation →
      writeOneof p o = some (write p (oneofText (pd.indendation + 1) o)) :=
    fun o ho p hp => by
      rw [writeOneof_of_resolves p o (hd p hp) (hres.2 o ho), hp]; rfl
  simp only [writeMessage, indent_write, write_write]
  rw [forEach_lines_at writeReservedName _ (indent pd) _ m.reservedNames hnames]
  simp only []
  rw [forEach_lines_at writeReservedRange _ (indent pd) _ m.reservedRanges hranges]
  simp only []
  rw [forEach_lines_at writeMessageField _ (indent pd) _ m.fields hfields]
  simp only []
  rw [forEach_lines_at writeOneof _ (indent pd) _ m.oneofs honeofs]
  simp only [dedent_write, dedent_indent]
  rw [writeIndented_of_nonneg _ _ (by simpa using h)]
  rw [concat_map_filter (fun f : FieldDescriptor => f.info.containingOneof.isNone)
    (fun f => ind (pd.indendation + 1) ++ fieldText f) m.fields]
  simp [messageText, directFields, write_write, String.append_assoc]

@[simp] theorem write_descriptor (pd : ProtoDefinition) (s : String) :
    (write pd s).descriptor = pd.descriptor := rfl

@[simp] theorem write_filename (pd : ProtoDefinition) (s : String) :
    (write pd s).filename = pd.filename := rfl

theorem writeImport_eq (pd : ProtoDefinition) (fileImport : FileImport) :
    writeImport pd fileImport = write pd (importText fileImport) := by
  cases h : fileImport.isPublic <;>
    simp [writeImport, importText, h, write_write, String.append_assoc]

theorem foldl_writeImport (imports : List FileImport) :
    ∀ pd : ProtoDefinition,
      imports.foldl writeImport pd = write pd (concat (imports.map importText)) := by
  induction imports with
  | nil => intro pd; simp [concat, write_empty]
  | cons i rest ih =>
    intro pd
    simp [List.foldl, ih, writeImport_eq, concat, write_write]

theorem writeService_of_nonneg (pd : ProtoDefinition) (service : ServiceDescriptor)
    (h : 0 ≤ pd.indendation) :
    writeService pd service = some (write pd (serviceText pd.indendation service)) := by
  have hmethods : ∀ x ∈ service.methods, ∀ p : ProtoDefinition,
      p.indendation = (indent pd).indendation →
      writeMethod p x = some (write p (methodText (pd.indendation + 1) x)) :=
    fun x _ p hp => by
      rw [writeMethod_of_nonneg p x (by rw [hp]; simp; omega), hp]
      simp [methodText, String.append_assoc]
  simp only [writeService, indent_write, write_write]
  rw [forEach_lines_at writeMethod _ (indent pd) _ service.methods hmethods]
  simp only [dedent_write, dedent_indent]
  rw [writeIndented_of_nonneg _ _ (by simpa using h)]
  simp [serviceText, write_write, String.append_assoc]

theorem writeEnum_eq_enumText (pd : ProtoDefinition) (enum : EnumDescriptor)
    (h : 0 ≤ pd.indendation) :
    writeEnum pd enum = some (write pd (enumText pd.indendation enum)) := by
  rw [writeEnum_of_nonneg pd enum h]
  simp [enumText, String.append_assoc]

theorem writeFileDescriptor_of_resolves (pd : ProtoDefinition) (h : 0 ≤ pd.indendation)
    (hres : ∀ m ∈ pd.descriptor.messages, m.Resolves) :
    writeFileDescriptor pd = some (write pd (fileText pd.indendation pd.descriptor)) := by
  have hservices : ∀ x ∈ pd.descriptor.services, ∀ p : ProtoDefinition,
      p.indendation = pd.indendation →
      writeService p x = some (write p (serviceText pd.indendation x)) :=
    fun x _ p hp => by rw [writeService_of_nonneg p x (by omega), hp]
  have hmessages : ∀ x ∈ pd.descriptor.messages, ∀ p : ProtoDefinition,
      p.indendation = pd.indendation →
      writeMessage p x = some (write p (messageText pd.indendation x)) :=
    fun x hx p hp => by rw [writeMessage_of_resolves p x (by omega) (hres x hx), hp]
  have henums : ∀ x ∈ pd.descriptor.enums, ∀ p : ProtoDefinition,
      p.indendation = pd.indendation →
      writeEnum p x = some (write p (enumText pd.indendation x)) :=
    fun x _ p hp => by rw [writeEnum_eq_enumText p x (by omega), hp]
  simp only [writeFileDescriptor, write_descriptor, foldl_writeImport, write_write]
  by_cases himp : pd.descriptor.imports.length > 0
  · simp only [himp, if_true, write_write, write_descriptor]
    rw [forEach_lines_at writeService _ pd _ pd.descriptor.services hservices]
    simp only [write_descriptor]
    rw [forEach_lines_at writeMessage _ pd _ pd.descriptor.messages hmessages]
    simp only [write_descriptor]
    rw [forEach_lines_at writeEnum _ pd _ pd.descriptor.enums henums]
    simp [fileText, headerText, himp, String.append_assoc]
  · simp only [himp, if_false, write_descriptor]
    rw [forEach_lines_at writeService _ pd _ pd.descriptor.services hservices]
    simp only [write_descriptor]
    rw [forEach_lines_at writeMessage _ pd _ pd.descriptor.messages hmessages]
    simp only [write_descriptor]
    rw [forEach_lines_at writeEnum _ pd _ pd.descriptor.enums henums]
    simp [fileText, headerText, himp, String.append_assoc]

set_option smartUnfolding false in
theorem wellFormed_mk (info : FieldInfo) (mapKey mapValue : Option FieldDescriptor) :
    (FieldDescriptor.mk info mapKey mapValue).wellFormed =
      if info.kind = "message" then info.message.isSome
      else if info.kind = "map" then
        (match mapKey with
          | none => false
          | some key => key.wellFormed) &&
        (match mapValue with
          | none => false
          | some value => value.wellFormed)
      else true := by
  cases mapKey <;> cases mapValue <;> rfl

theorem typeName_of_wellFormed : ∀ field : FieldDescriptor,
    field.wellFormed = true → typeName field ≠ none
  | .mk info none mv, h => by
    rw [wellFormed_mk] at h
    rw [typeName_mk]
    by_cases h1 : info.kind = "message"
    · simp only [h1, if_true] at h ⊢
      intro hn; simp [hn] at h
    · by_cases h2 : info.kind = "map"
      · simp [h1, h2] at h
      · simp [h1, h2]
  | .mk info (some key) none, h => by
    rw [wellFormed_mk] at h
    rw [typeName_mk]
    by_cases h1 : info.kind = "message"
    · simp only [h1, if_true] at h ⊢
      intro hn; simp [hn] at h
    · by_cases h2 : info.kind = "map"
      · simp [h1, h2] at h
      · simp [h1, h2]
  | .mk info (some key) (some value), h => by
    rw [wellFormed_mk] at h
    rw [typeName_mk]
    by_cases h1 : info.kind = "message"
    · simp only [h1, if_true] at h ⊢
      intro hn; simp [hn] at h
    · by_cases h2 : info.kind = "map"
      · have hne : ¬ ("map" = "message") := by decide
        simp only [h2, hne, if_true, if_false, Bool.and_eq_true] at h ⊢
        obtain ⟨k, hk⟩ := Option.ne_none_iff_exists'.mp (typeName_of_wellFormed key h.1)
        obtain ⟨v, hv⟩ := Option.ne_none_iff_exists'.mp (typeName_of_wellFormed value h.2)
        simp [hk, hv]
      · simp [h1, h2]

theorem resolves_of_wellFormed (m : MessageDescriptor) (h : m.WellFormed) : m.Resolves :=
  ⟨fun f hf _ => typeName_of_wellFormed f (h.1 f hf),
   fun o ho f hf => typeName_of_wellFormed f (h.2 o ho f hf)⟩

theorem takeWhile_append_stop {α : Type} (keep : α → Bool) (x : α) (hx : keep x = false) :
    ∀ (l r : List α), (∀ c ∈ l, keep c = true) → (l ++ x :: r).takeWhile keep = l := by
  intro l r
  induction l with
  | nil => intro _; simp [List.takeWhile, hx]
  | cons c rest ih =>
    intro h
    have hc : keep c = true := h c (List.mem_cons_self c rest)
    simp [List.takeWhile, hc, ih (fun y hy => h y (List.mem_cons_of_mem c hy))]

theorem takeWhile_all {α : Type} (keep : α → Bool) :
    ∀ l : List α, (∀ c ∈ l, keep c = true) → l.takeWhile keep = l := by
  intro l
  induction l with
  | nil => intro _; rfl
  | cons c rest ih =>
    intro h
    have hc : keep c = true := h c (List.mem_cons_self c rest)
    simp [List.takeWhile, hc, ih (fun y hy => h y (List.mem_cons_of_mem c hy))]

theorem fullNameName_of_no_dot (p : String) (h : '.' ∉ p.data) : fullNameName p = p := by
  unfold fullNameName
  rw [takeWhile_all _ p.data.reverse (fun c hc => by
    have hne : c ≠ '.' := fun he => h (he ▸ List.mem_reverse.mp hc)
    simpa using hne)]
  simp

theorem fullNameName_append_dot (a b : String) (h : '.' ∉ b.data) :
    fullNameName (a ++ "." ++ b) = b := by
  unfold fullNameName
  have hdata : (a ++ "." ++ b).data.reverse = b.data.reverse ++ '.' :: a.data.reverse := by
    simp
  rw [hdata, takeWhile_append_stop _ '.' (by simp) b.data.reverse a.data.reverse (fun c hc => by
    have hne : c ≠ '.' := fun he => h (he ▸ List.mem_reverse.mp hc)
    simpa using hne)]
  simp

theorem forEach_appends {α : Type} (body : ProtoDefinition → α → Option ProtoDefinition)
    (xs : List α)
    (h : ∀ x ∈ xs, ∀ p q : ProtoDefinition, body p x = some q → ∃ t, q = write p t) :
    ∀ p q : ProtoDefinition, forEach body xs p = some q → ∃ t, q = write p t := by
  induction xs with
  | nil =>
    intro p q hq
    simp only [forEach, Option.some.injEq] at hq
    exact ⟨"", by rw [← hq, write_empty]⟩
  | cons x rest ih =>
    intro p q hq
    simp only [forEach] at hq
    cases hx : body p x with
    | none => simp [hx] at hq
    | some p1 =>
      simp only [hx] at hq
      obtain ⟨t1, rfl⟩ := h x (List.mem_cons_self x rest) p p1 hx
      obtain ⟨t2, rfl⟩ := ih (fun y hy => h y (List.mem_cons_of_mem x hy)) _ q hq
      exact ⟨t1 ++ t2, write_write p t1 t2⟩

theorem writeIndented_appends (p : ProtoDefinition) (s : String) (q : ProtoDefinition)
    (h : writeIndented p s = some q) : ∃ t, q = write p t := by
  unfold writeIndented at h
  cases hr : stringsRepeat "    " p.indendation with
  | none => simp [hr] at h
  | some r =>
    simp only [hr, Option.some.injEq] at h
    exact ⟨r ++ s, by rw [← h, write_write]⟩

theorem writeType_appends (p : ProtoDefinition) (field : FieldDescriptor) (q : ProtoDefinition)
    (h : writeType p field = some q) : ∃ t, q = write p t := by
  rw [writeType_eq] at h
  cases ht : typeName field with
  | none => simp [ht] at h
  | some t => exact ⟨t, by simpa [ht] using h.symm⟩

theorem writeField_appends (p : ProtoDefinition) (field : FieldDescriptor) (q : ProtoDefinition)
    (h : writeField p field = some q) : ∃ t, q = write p t := by
  unfold writeField at h
  cases hi : writeIndented p "" with
  | none => simp [hi] at h
  | some p1 =>
    obtain ⟨t1, rfl⟩ := writeIndented_appends p "" p1 hi
    simp only [hi, writeType_eq] at h
    cases ht : typeName field with
    | none => simp [ht] at h
    | some t =>
      simp only [ht, Option.map_some', Option.some.injEq] at h
      rw [← h]
      split_ifs <;> exact ⟨_, by simp only [write_write]; rfl⟩

theorem writeMethod_appends (p : ProtoDefinition) (method : MethodDescriptor)
    (q : ProtoDefinition) (h : writeMethod p method = some q) : ∃ t, q = write p t := by
  unfold writeMethod at h
  cases hi : writeIndented p "rpc " with
  | none => simp [hi] at h
  | some p1 =>
    obtain ⟨t1, rfl⟩ := writeIndented_appends p "rpc " p1 hi
    simp only [hi, Option.some.injEq] at h
    rw [← h]
    split_ifs <;> exact ⟨_, by simp only [write_write]; rfl⟩

theorem writeEnumValue_appends (p : ProtoDefinition) (value : EnumValueDescriptor)
    (q : ProtoDefinition) (h : writeEnumValue p value = some q) : ∃ t, q = write p t := by
  unfold writeEnumValue at h
  cases hi : writeIndented p value.name with
  | none => simp [hi] at h
  | some p1 =>
    obtain ⟨t1, rfl⟩ := writeIndented_appends p value.name p1 hi
    simp only [hi, Option.some.injEq] at h
    exact ⟨_, by rw [← h]; simp only [write_write]; rfl⟩

theorem writeReservedName_appends (p : ProtoDefinition) (name : String)
    (q : ProtoDefinition) (h : writeReservedName p name = some q) : ∃ t, q = write p t := by
  unfold writeReservedName at h
  cases hi : writeIndented p "reserved " with
  | none => simp [hi] at h
  | some p1 =>
    obtain ⟨t1, rfl⟩ := writeIndented_appends p "reserved " p1 hi
    simp only [hi, Option.some.injEq] at h
    exact ⟨_, by rw [← h]; simp only [write_write]; rfl⟩

theorem writeReservedRange_appends (p : ProtoDefinition) (r : Int × Int)
    (q : ProtoDefinition) (h : writeReservedRange p r = some q) : ∃ t, q = write p t := by
  unfold writeReservedRange at h
  cases hi : writeIndented p "reserved " with
  | none => simp [hi] at h
  | some p1 =>
    obtain ⟨t1, rfl⟩ := writeIndented_appends p "reserved " p1 hi
    simp only [hi, Option.some.injEq] at h
    rw [← h]
    split_ifs <;> exact ⟨_, by simp only [write_write]; rfl⟩

theorem writeMessageField_appends (p : ProtoDefinition) (field : FieldDescriptor)
    (q : ProtoDefinition) (h : writeMessageField p field = some q) : ∃ t, q = write p t := by
  unfold writeMessageField at h
  split_ifs at h
  · exact writeField_appends p field q h
  · simp only [Option.some.injEq] at h
    exact ⟨"", by rw [← h, write_empty]⟩

theorem block_appends {α : Type} (body : ProtoDefinition → α → Option ProtoDefinition)
    (xs : List α)
    (hbody : ∀ x ∈ xs, ∀ p q : ProtoDefinition, body p x = some q → ∃ t, q = write p t)
    (p : ProtoDefinition) (head tail : String) (q : ProtoDefinition)
    (h : (match forEach body xs (indent (write p head)) with
          | none => none
          | some p1 => writeIndented (dedent p1) tail) = some q) :
    ∃ t, q = write p t := by
  cases hloop : forEach body xs (indent (write p head)) with
  | none => simp [hloop] at h
  | some p1 =>
    simp only [hloop] at h
    obtain ⟨t1, rfl⟩ := forEach_appends body xs hbody _ p1 hloop
    obtain ⟨t2, rfl⟩ := writeIndented_appends _ tail q h
    exact ⟨head ++ t1 ++ t2, by
      simp only [dedent_write, indent_write, dedent_indent, write_write]⟩

theorem writeService_appends (p : ProtoDefinition) (service : ServiceDescriptor)
    (q : ProtoDefinition) (h : writeService p service = some q) : ∃ t, q = write p t := by
  simp only [writeService, write_write] at h
  exact block_appends writeMethod service.methods
    (fun x _ p1 q1 => writeMethod_appends p1 x q1) p _ _ q h

theorem writeEnum_appends (p : ProtoDefinition) (enum : EnumDescriptor)
    (q : ProtoDefinition) (h : writeEnum p enum = some q) : ∃ t, q = write p t := by
  simp only [writeEnum, write_write] at h
  exact block_appends writeEnumValue enum.values
    (fun x _ p1 q1 => writeEnumValue_appends p1 x q1) p _ _ q h

theorem writeOneof_appends (p : ProtoDefinition) (oneof : OneofDescriptor)
    (q : ProtoDefinition) (h : writeOneof p oneof = some q) : ∃ t, q = write p t := by
  unfold writeOneof at h
  cases hi : writeIndented p "" with
  | none => simp [hi] at h
  | some p1 =>
    obtain ⟨t1, rfl⟩ := writeIndented_appends p "" p1 hi
    simp only [hi, write_write] at h
    exact block_appends writeField oneof.fields
      (fun x _ p1 q1 => writeField_appends p1 x q1) p _ _ q h

theorem writeMessage_appends (p : ProtoDefinition) (m : MessageDescriptor)
    (q : ProtoDefinition) (h : writeMessage p m = some q) : ∃ t, q = write p t := by
  simp only [writeMessage, write_write] at h
  cases h1 : forEach writeReservedName m.reservedNames
      (indent (write p ("message " ++ m.name ++ " \x7b\n"))) with
  | none => simp [h1] at h
  | some p1 =>
    simp only [h1] at h
    obtain ⟨t1, rfl⟩ := forEach_appends writeReservedName m.reservedNames
      (fun x _ a b => writeReservedName_appends a x b) _ p1 h1
    cases h2 : forEach writeReservedRange m.reservedRanges
        (write (indent (write p ("message " ++ m.name ++ " \x7b\n"))) t1) with
    | none => simp [h2] at h
    | some p2 =>
      simp only [h2] at h
      obtain ⟨t2, rfl⟩ := forEach_appends writeReservedRange m.reservedRanges
        (fun x _ a b => writeReservedRange_appends a x b) _ p2 h2
      cases h3 : forEach writeMessageField m.fields
          (write (write (indent (write p ("message " ++ m.name ++ " \x7b\n"))) t1) t2) with
      | none => simp [h3] at h
      | some p3 =>
        simp only [h3] at h
        obtain ⟨t3, rfl⟩ := forEach_appends writeMessageField m.fields
          (fun x _ a b => writeMessageField_appends a x b) _ p3 h3
        simp only [indent_write, write_write] at h
        exact block_appends writeOneof m.oneofs
          (fun x _ a b => writeOneof_appends a x b) p _ _ q h

theorem writeFileDescriptor_appends (p q : ProtoDefinition)
    (h : writeFileDescriptor p = some q) :
    ∃ rest, q = write p (headerText p.descriptor ++ rest) := by
  simp only [writeFileDescriptor, write_descriptor, foldl_writeImport, write_write] at h
  have hstart : ∀ start : String,
      (match forEach writeService p.descriptor.services (write p start) with
        | none => none
        | some p1 =>
          match forEach writeMessage p1.descriptor.messages p1 with
          | none => none
          | some p2 => forEach writeEnum p2.descriptor.enums p2) = some q →
      ∃ t, q = write p (start ++ t) := by
    intro start hq
    cases h1 : forEach writeService p.descriptor.services (write p start) with
    | none => simp [h1] at hq
    | some p1 =>
      obtain ⟨t1, rfl⟩ := forEach_appends writeService _
        (fun x _ a b => writeService_appends a x b) _ p1 h1
      simp only [h1, write_descriptor] at hq
      cases h2 : forEach writeMessage p.descriptor.messages (write (write p start) t1) with
      | none => simp [h2] at hq
      | some p2 =>
        obtain ⟨t2, rfl⟩ := forEach_appends writeMessage _
          (fun x _ a b => writeMessage_appends a x b) _ p2 h2
        simp only [h2, write_descriptor] at hq
        obtain ⟨t3, rfl⟩ := forEach_appends writeEnum _
          (fun x _ a b => writeEnum_appends a x b) _ q hq
        exact ⟨t1 ++ t2 ++ t3, by simp only [write_write, String.append_assoc]⟩
  by_cases himp : p.descriptor.imports.length > 0
  · simp only [himp, if_true, write_write, write_descriptor] at h
    obtain ⟨t, ht⟩ := hstart _ h
    exact ⟨concat (p.descriptor.imports.map importText) ++ "\n" ++ t, by
      rw [ht]; simp only [headerText, String.append_assoc]⟩
  · simp only [himp, if_false, write_descriptor] at h
    obtain ⟨t, ht⟩ := hstart _ h
    exact ⟨concat (p.descriptor.imports.map importText) ++ t, by
      rw [ht]; simp only [headerText, String.append_assoc]⟩

theorem forIndex_eq_forEach_drop {α : Type}
    (body : ProtoDefinition → α → Option ProtoDefinition) (xs : List α) :
    ∀ (k i : Nat) (pd : ProtoDefinition), xs.length - i = k →
      forIndex body xs i pd = forEach body (xs.drop i) pd := by
  intro k
  induction k with
  | zero =>
    intro i pd hk
    have hle : xs.length ≤ i := by omega
    rw [forIndex, if_neg (by omega), List.drop_eq_nil_of_le hle]
    rfl
  | succ k ih =>
    intro i pd hk
    have hlt : i < xs.length := by omega
    rw [forIndex, if_pos hlt, List.get?_eq_get hlt, List.drop_eq_getElem_cons hlt]
    simp only [forEach, List.get_eq_getElem]
    cases body pd xs[i] with
    | none => rfl
    | some pd1 => exact ih (i + 1) pd1 (by omega)

theorem sampleFile_wellFormed : sampleFile.WellFormed := by
  intro m hm
  simp only [sampleFile, List.mem_cons, List.mem_singleton, List.not_mem_nil,
    or_false] at hm
  rcases hm with rfl | rfl
  · exact ⟨by simp [pointMessage, scalarField, wellFormed_mk], by simp [pointMessage]⟩
  · exact ⟨by simp [mixedMessage, scalarField, choiceField, wellFormed_mk],
      by simp [mixedMessage, choiceField, wellFormed_mk]⟩

theorem stepT_pd (f : ProtoDefinition → Option ProtoDefinition) (t : Traced) :
    (stepT f t).map (fun r => r.pd) = f t.pd := by
  unfold stepT
  cases f t.pd <;> rfl

theorem forEachT_pd {α : Type} (bodyT : Traced → α → Option Traced)
    (body : ProtoDefinition → α → Option ProtoDefinition) (xs : List α)
    (h : ∀ x ∈ xs, ∀ t : Traced, (bodyT t x).map (fun r => r.pd) = body t.pd x) :
    ∀ t : Traced, (forEachT bodyT xs t).map (fun r => r.pd) = forEach body xs t.pd := by
  induction xs with
  | nil => intro t; rfl
  | cons x rest ih =>
    intro t
    have hx := h x (List.mem_cons_self x rest) t
    simp only [forEachT, forEach]
    cases hb : bodyT t x with
    | none =>
      rw [hb] at hx
      simp only [Option.map_none'] at hx
      rw [← hx]
      rfl
    | some t1 =>
      rw [hb] at hx
      simp only [Option.map_some'] at hx
      rw [← hx]
      exact ih (fun y hy => h y (List.mem_cons_of_mem x hy)) t1

theorem blockT_pd {α : Type} (bodyT : Traced → α → Option Traced)
    (body : ProtoDefinition → α → Option ProtoDefinition) (xs : List α)
    (h : ∀ x ∈ xs, ∀ t : Traced, (bodyT t x).map (fun r => r.pd) = body t.pd x)
    (t : Traced) (tail : String) :
    Option.map (fun r : Traced => r.pd)
      (match forEachT bodyT xs (indentT t) with
        | none => none
        | some t1 => stepT (fun pd => writeIndented pd tail) (dedentT t1)) =
    (match forEach body xs (indent t.pd) with
      | none => none
      | some p1 => writeIndented (dedent p1) tail) := by
  have hloop := forEachT_pd bodyT body xs h (indentT t)
  have hstart : (indentT t).pd = indent t.pd := rfl
  rw [hstart] at hloop
  cases hT : forEachT bodyT xs (indentT t) with
  | none =>
    rw [hT] at hloop
    simp only [Option.map_none'] at hloop
    rw [← hloop]
    rfl
  | some t1 =>
    rw [hT] at hloop
    simp only [Option.map_some'] at hloop
    rw [← hloop]
    exact stepT_pd _ (dedentT t1)

theorem writeServiceT_pd (t : Traced) (service : ServiceDescriptor) :
    (writeServiceT t service).map (fun r => r.pd) = writeService t.pd service :=
  blockT_pd (fun t method => stepT (fun pd => writeMethod pd method) t) writeMethod
    service.methods (fun x _ t1 => stepT_pd (fun pd => writeMethod pd x) t1)
    { pd := write (write (write t.pd "service ") service.name) " \x7b\n", seen := t.seen } _

theorem writeEnumT_pd (t : Traced) (enum : EnumDescriptor) :
    (writeEnumT t enum).map (fun r => r.pd) = writeEnum t.pd enum :=
  blockT_pd (fun t value => stepT (fun pd => writeEnumValue pd value) t) writeEnumValue
    enum.values (fun x _ t1 => stepT_pd (fun pd => writeEnumValue pd x) t1)
    { pd := write (write (write t.pd "enum ") enum.name) " \x7b\n", seen := t.seen } _

theorem writeOneofT_pd (t : Traced) (oneof : OneofDescriptor) :
    (writeOneofT t oneof).map (fun r => r.pd) = writeOneof t.pd oneof := by
  unfold writeOneofT writeOneof
  have hstep := stepT_pd (fun pd => writeIndented pd "") t
  cases hs : stepT (fun pd => writeIndented pd "") t with
  | none =>
    rw [hs] at hstep
    simp only [Option.map_none'] at hstep
    simp only [← hstep]
    rfl
  | some t1 =>
    rw [hs] at hstep
    simp only [Option.map_some'] at hstep
    simp only [← hstep]
    exact blockT_pd (fun t field => stepT (fun pd => writeField pd field) t) writeField
      oneof.fields (fun x _ t2 => stepT_pd (fun pd => writeField pd x) t2)
      { pd := write (write (write t1.pd "oneof ") oneof.name) " \x7b\n", seen := t1.seen } _

theorem bindT_pd (a : Option Traced) (b : Option ProtoDefinition)
    (k : Traced → Option Traced) (k1 : ProtoDefinition → Option ProtoDefinition) :
    a.map (fun r => r.pd) = b →
    (∀ t : Traced, (k t).map (fun r => r.pd) = k1 t.pd) →
    Option.map (fun r : Traced => r.pd)
      (match a with
        | none => none
        | some t => k t) =
    (match b with
      | none => none
      | some p => k1 p) := by
  intro hab hk
  subst hab
  cases a with
  | none => rfl
  | some t => exact hk t

theorem writeMessageT_pd (t : Traced) (m : MessageDescriptor) :
    (writeMessageT t m).map (fun r => r.pd) = writeMessage t.pd m := by
  unfold writeMessageT writeMessage
  simp only []
  refine bindT_pd _ _ _ _
    (forEachT_pd (fun t name => stepT (fun pd => writeReservedName pd name) t)
      writeReservedName m.reservedNames
      (fun x _ t1 => stepT_pd (fun pd => writeReservedName pd x) t1) _) ?_
  intro t1
  refine bindT_pd _ _ _ _
    (forEachT_pd (fun t r => stepT (fun pd => writeReservedRange pd r) t)
      writeReservedRange m.reservedRanges
      (fun x _ t2 => stepT_pd (fun pd => writeReservedRange pd x) t2) t1) ?_
  intro t2
  refine bindT_pd _ _ _ _
    (forEachT_pd (fun t field => stepT (fun pd => writeMessageField pd field) t)
      writeMessageField m.fields
      (fun x _ t3 => stepT_pd (fun pd => writeMessageField pd x) t3) t2) ?_
  intro t3
  refine bindT_pd _ _ _ _
    (forEachT_pd writeOneofT writeOneof m.oneofs (fun x _ t4 => writeOneofT_pd t4 x) t3) ?_
  intro t4
  exact stepT_pd _ (dedentT t4)

theorem writeFileDescriptorT_pd (t : Traced) :
    (writeFileDescriptorT t).map (fun r => r.pd) = writeFileDescriptor t.pd := by
  unfold writeFileDescriptorT writeFileDescriptor stepT
  simp only []
  refine bindT_pd _ _ _ _
    (forEachT_pd writeServiceT writeService _ (fun x _ t1 => writeServiceT_pd t1 x) _) ?_
  intro t1
  refine bindT_pd _ _ _ _
    (forEachT_pd writeMessageT writeMessage _ (fun x _ t2 => writeMessageT_pd t2 x) t1) ?_
  intro t2
  exact forEachT_pd writeEnumT writeEnum _ (fun x _ t3 => writeEnumT_pd t3 x) t2

theorem Traced.Extends.refl (lo hi : Int) (t : Traced) : Traced.Extends lo hi t t :=
  ⟨rfl, fun _ hv => Or.inl hv⟩

theorem Traced.Extends.trans {lo hi : Int} {t t1 t2 : Traced}
    (h1 : Traced.Extends lo hi t t1) (h2 : Traced.Extends lo hi t1 t2) :
    Traced.Extends lo hi t t2 :=
  ⟨h2.1.trans h1.1, fun v hv => (h2.2 v hv).elim (fun hv1 => h1.2 v hv1) Or.inr⟩

theorem Traced.Extends.mono {lo hi lo1 hi1 : Int} {t t1 : Traced}
    (h : Traced.Extends lo hi t t1) (hlo : lo1 ≤ lo) (hhi : hi ≤ hi1) :
    Traced.Extends lo1 hi1 t t1 :=
  ⟨h.1, fun v hv => (h.2 v hv).elim Or.inl (fun hr => Or.inr ⟨by omega, by omega⟩)⟩

theorem stepT_extends (f : ProtoDefinition → Option ProtoDefinition)
    (hf : ∀ p q : ProtoDefinition, f p = some q → ∃ s, q = write p s)
    (lo hi : Int) (t t1 : Traced) (h : stepT f t = some t1) : Traced.Extends lo hi t t1 := by
  unfold stepT at h
  cases hp : f t.pd with
  | none => simp [hp] at h
  | some q =>
    simp only [hp, Option.some.injEq] at h
    obtain ⟨s, hs⟩ := hf t.pd q hp
    subst h
    exact ⟨by simp [hs], fun v hv => Or.inl hv⟩

theorem forEachT_extends {α : Type} (bodyT : Traced → α → Option Traced) (xs : List α)
    (d lo hi : Int)
    (h : ∀ x ∈ xs, ∀ t t1 : Traced, t.pd.indendation = d → bodyT t x = some t1 →
      Traced.Extends lo hi t t1) :
    ∀ t t1 : Traced, t.pd.indendation = d → forEachT bodyT xs t = some t1 →
      Traced.Extends lo hi t t1 := by
  induction xs with
  | nil =>
    intro t t1 _ ht
    simp only [forEachT, Option.some.injEq] at ht
    subst ht
    exact Traced.Extends.refl lo hi t
  | cons x rest ih =>
    intro t t1 hd ht
    simp only [forEachT] at ht
    cases hb : bodyT t x with
    | none => simp [hb] at ht
    | some t2 =>
      simp only [hb] at ht
      have h2 := h x (List.mem_cons_self x rest) t t2 hd hb
      have h3 := ih (fun y hy => h y (List.mem_cons_of_mem x hy)) t2 t1 (h2.1.trans hd) ht
      exact h2.trans h3

theorem blockT_extends {α : Type} (bodyT : Traced → α → Option Traced) (xs : List α)
    (d lo hi : Int) (hlo : lo ≤ d) (hhi : d + 1 ≤ hi)
    (h : ∀ x ∈ xs, ∀ t t1 : Traced, t.pd.indendation = d + 1 → bodyT t x = some t1 →
      Traced.Extends lo hi t t1)
    (t : Traced) (tail : String) (t1 : Traced) (hd : t.pd.indendation = d) :
    (match forEachT bodyT xs (indentT t) with
      | none => none
      | some t2 => stepT (fun pd => writeIndented pd tail) (dedentT t2)) = some t1 →
    Traced.Extends lo hi t t1 := by
  intro hrun
  cases hloop : forEachT bodyT xs (indentT t) with
  | none => simp [hloop] at hrun
  | some t2 =>
    simp only [hloop] at hrun
    have hin : (indentT t).pd.indendation = d + 1 := by simp [indentT, hd]
    have h2 := forEachT_extends bodyT xs (d + 1) lo hi h (indentT t) t2 hin hloop
    have h3 := stepT_extends (fun pd => writeIndented pd tail)
      (fun p q => writeIndented_appends p tail q) lo hi (dedentT t2) t1 hrun
    have h2d : t2.pd.indendation = d + 1 := h2.1.trans hin
    have hded : (dedentT t2).pd.indendation = d := by
      simp [dedentT, dedent, h2d]
    refine ⟨by rw [h3.1, hded, hd], ?_⟩
    intro v hv
    rcases h3.2 v hv with hv1 | hr
    · simp only [dedentT, List.mem_cons] at hv1
      rcases hv1 with hv2 | hv2
      · right
        have : v = d := by rw [hv2]; simpa [dedentT] using hded
        omega
      · rcases h2.2 v hv2 with hv3 | hr
        · simp only [indentT, List.mem_cons] at hv3
          rcases hv3 with hv4 | hv4
          · right
            have : v = d + 1 := by rw [hv4]; simpa [indentT] using hin
            omega
          · exact Or.inl hv4
        · exact Or.inr hr
    · exact Or.inr hr

theorem writeServiceT_extends (t t1 : Traced) (service : ServiceDescriptor)
    (h : writeServiceT t service = some t1) :
    Traced.Extends t.pd.indendation (t.pd.indendation + 1) t t1 := by
  unfold writeServiceT at h
  exact blockT_extends (fun t method => stepT (fun pd => writeMethod pd method) t)
    service.methods t.pd.indendation _ _ (le_refl _) (le_refl _)
    (fun x _ a b _ hb => stepT_extends (fun pd => writeMethod pd x)
      (fun p q => writeMethod_appends p x q) _ _ a b hb)
    { pd := write (write (write t.pd "service ") service.name) " \x7b\n", seen := t.seen }
    _ t1 rfl h

theorem writeEnumT_extends (t t1 : Traced) (enum : EnumDescriptor)
    (h : writeEnumT t enum = some t1) :
    Traced.Extends t.pd.indendation (t.pd.indendation + 1) t t1 := by
  unfold writeEnumT at h
  exact blockT_extends (fun t value => stepT (fun pd => writeEnumValue pd value) t)
    enum.values t.pd.indendation _ _ (le_refl _) (le_refl _)
    (fun x _ a b _ hb => stepT_extends (fun pd => writeEnumValue pd x)
      (fun p q => writeEnumValue_appends p x q) _ _ a b hb)
    { pd := write (write (write t.pd "enum ") enum.name) " \x7b\n", seen := t.seen }
    _ t1 rfl h

theorem writeOneofT_extends (t t1 : Traced) (oneof : OneofDescriptor)
    (h : writeOneofT t oneof = some t1) :
    Traced.Extends t.pd.indendation (t.pd.indendation + 1) t t1 := by
  unfold writeOneofT at h
  cases hs : stepT (fun pd => writeIndented pd "") t with
  | none => simp [hs] at h
  | some t2 =>
    simp only [hs] at h
    have h2 := stepT_extends (fun pd => writeIndented pd "")
      (fun p q => writeIndented_appends p "" q) t.pd.indendation (t.pd.indendation + 1) t t2 hs
    have h3 := blockT_extends (fun t field => stepT (fun pd => writeField pd field) t)
      oneof.fields t.pd.indendation _ _ (le_refl _) (le_refl _)
      (fun x _ a b _ hb => stepT_extends (fun pd => writeField pd x)
        (fun p q => writeField_appends p x q) _ _ a b hb)
      { pd := write (write (write t2.pd "oneof ") oneof.name) " \x7b\n", seen := t2.seen }
      _ t1 (by simpa using h2.1) h
    exact ⟨h3.1.trans (by simpa using h2.1), fun v hv => (h3.2 v hv).elim (h2.2 v) Or.inr⟩

theorem writeMessageT_extends (t t1 : Traced) (m : MessageDescriptor)
    (h : writeMessageT t m = some t1) :
    Traced.Extends t.pd.indendation (t.pd.indendation + 2) t t1 := by
  unfold writeMessageT at h
  simp only [] at h
  have hin : (indentT (Traced.mk (write (write (write t.pd "message ") m.name) " \x7b\n")
      t.seen)).pd.indendation = t.pd.indendation + 1 := by simp [indentT]
  cases h1 : forEachT (fun t name => stepT (fun pd => writeReservedName pd name) t)
      m.reservedNames (indentT (Traced.mk (write (write (write t.pd "message ") m.name)
        " \x7b\n") t.seen)) with
  | none => simp [h1] at h
  | some a1 =>
    simp only [h1] at h
    have e1 := forEachT_extends _ m.reservedNames (t.pd.indendation + 1) t.pd.indendation
      (t.pd.indendation + 2)
      (fun x _ a b _ hb => stepT_extends (fun pd => writeReservedName pd x)
        (fun p q => writeReservedName_appends p x q) _ _ a b hb) _ a1 hin h1
    cases h2 : forEachT (fun t r => stepT (fun pd => writeReservedRange pd r) t)
        m.reservedRanges a1 with
    | none => simp [h2] at h
    | some a2 =>
      simp only [h2] at h
      have e2 := forEachT_extends _ m.reservedRanges (t.pd.indendation + 1) t.pd.indendation
        (t.pd.indendation + 2)
        (fun x _ a b _ hb => stepT_extends (fun pd => writeReservedRange pd x)
          (fun p q => writeReservedRange_appends p x q) _ _ a b hb) a1 a2
        (e1.1.trans hin) h2
      cases h3 : forEachT (fun t field => stepT (fun pd => writeMessageField pd field) t)
          m.fields a2 with
      | none => simp [h3] at h
      | some a3 =>
        simp only [h3] at h
        have e3 := forEachT_extends _ m.fields (t.pd.indendation + 1) t.pd.indendation
          (t.pd.indendation + 2)
          (fun x _ a b _ hb => stepT_extends (fun pd => writeMessageField pd x)
            (fun p q => writeMessageField_appends p x q) _ _ a b hb) a2 a3
          ((e2.1.trans e1.1).trans hin) h3
        cases h4 : forEachT writeOneofT m.oneofs a3 with
        | none => simp [h4] at h
        | some a4 =>
          simp only [h4] at h
          have e4 := forEachT_extends writeOneofT m.oneofs (t.pd.indendation + 1)
            t.pd.indendation (t.pd.indendation + 2)
            (fun x _ a b ha hb => by
              have hx := writeOneofT_extends a b x hb
              rw [ha] at hx
              exact hx.mono (by omega) (by omega)) a3 a4
            (((e3.1.trans e2.1).trans e1.1).trans hin) h4
          have e5 := stepT_extends (fun pd => writeIndented pd "\x7d\n\n")
            (fun p q => writeIndented_appends p _ q) t.pd.indendation (t.pd.indendation + 2)
            (dedentT a4) t1 h
          have hall := ((e1.trans e2).trans e3).trans e4
          have hd4 : a4.pd.indendation = t.pd.indendation + 1 := hall.1.trans hin
          have hded : (dedentT a4).pd.indendation = t.pd.indendation := by
            simp [dedentT, dedent, hd4]
          refine ⟨e5.1.trans hded, ?_⟩
          intro v hv
          rcases e5.2 v hv with hv1 | hr
          · simp only [dedentT, List.mem_cons] at hv1
            rcases hv1 with hv2 | hv2
            · right
              have : v = t.pd.indendation := by rw [hv2]; simpa [dedentT] using hded
              omega
            · rcases hall.2 v hv2 with hv3 | hr
              · simp only [indentT, List.mem_cons] at hv3
                rcases hv3 with hv4 | hv4
                · right
                  have : v = t.pd.indendation + 1 := by rw [hv4]; simp [indentT]
                  omega
                · exact Or.inl hv4
              · exact Or.inr hr
          · exact Or.inr hr

theorem writeFileDescriptorT_extends (t t1 : Traced)
    (h : writeFileDescriptorT t = some t1) :
    Traced.Extends t.pd.indendation (t.pd.indendation + 2) t t1 := by
  unfold writeFileDescriptorT at h
  split at h
  · cases h
  · rename_i a0 hs
    have e0 : Traced.Extends t.pd.indendation (t.pd.indendation + 2) t a0 := by
      refine stepT_extends _ ?_ _ _ t a0 hs
      intro p q hq
      simp only [write_descriptor, foldl_writeImport, write_write, Option.some.injEq] at hq
      rw [← hq]
      split_ifs
      · exact ⟨_, rfl⟩
      · exact ⟨_, rfl⟩
    cases h1 : forEachT writeServiceT a0.pd.descriptor.services a0 with
    | none => simp [h1] at h
    | some a1 =>
      simp only [h1] at h
      have e1 := forEachT_extends writeServiceT a0.pd.descriptor.services t.pd.indendation
        t.pd.indendation (t.pd.indendation + 2)
        (fun x _ a b ha hb => by
          have hx := writeServiceT_extends a b x hb
          rw [ha] at hx
          exact hx.mono (by omega) (by omega)) a0 a1 e0.1 h1
      cases h2 : forEachT writeMessageT a1.pd.descriptor.messages a1 with
      | none => simp [h2] at h
      | some a2 =>
        simp only [h2] at h
        have e2 := forEachT_extends writeMessageT a1.pd.descriptor.messages t.pd.indendation
          t.pd.indendation (t.pd.indendation + 2)
          (fun x _ a b ha hb => by
            have hx := writeMessageT_extends a b x hb
            rw [ha] at hx
            exact hx) a1 a2 (e1.1.trans e0.1) h2
        have e3 := forEachT_extends writeEnumT a2.pd.descriptor.enums t.pd.indendation
          t.pd.indendation (t.pd.indendation + 2)
          (fun x _ a b ha hb => by
            have hx := writeEnumT_extends a b x hb
            rw [ha] at hx
            exact hx.mono (by omega) (by omega)) a2 t1 ((e2.1.trans e1.1).trans e0.1) h
        exact ((e0.trans e1).trans e2).trans e3

theorem stepT_seen (f : ProtoDefinition → Option ProtoDefinition) (t t1 : Traced)
    (h : stepT f t = some t1) : t1.seen = t.seen := by
  unfold stepT at h
  cases hp : f t.pd with
  | none => simp [hp] at h
  | some q =>
    simp only [hp, Option.some.injEq] at h
    rw [← h]

theorem forEachT_seen {α : Type} (bodyT : Traced → α → Option Traced) (xs : List α)
    (h : ∀ x ∈ xs, ∀ t t1 : Traced, bodyT t x = some t1 → t1.seen = t.seen) :
    ∀ t t1 : Traced, forEachT bodyT xs t = some t1 → t1.seen = t.seen := by
  induction xs with
  | nil =>
    intro t t1 ht
    simp only [forEachT, Option.some.injEq] at ht
    rw [← ht]
  | cons x rest ih =>
    intro t t1 ht
    simp only [forEachT] at ht
    cases hb : bodyT t x with
    | none => simp [hb] at ht
    | some t2 =>
      simp only [hb] at ht
      rw [ih (fun y hy => h y (List.mem_cons_of_mem x hy)) t2 t1 ht,
        h x (List.mem_cons_self x rest) t t2 hb]

theorem blockT_seen {α : Type} (body : ProtoDefinition → α → Option ProtoDefinition)
    (hbody : ∀ x (p q : ProtoDefinition), body p x = some q → ∃ s, q = write p s)
    (xs : List α) (t : Traced) (tail : String) (t1 : Traced) :
    (match forEachT (fun t x => stepT (fun pd => body pd x) t) xs (indentT t) with
      | none => none
      | some t2 => stepT (fun pd => writeIndented pd tail) (dedentT t2)) = some t1 →
    t1.seen = t.pd.indendation :: (t.pd.indendation + 1) :: t.seen := by
  intro hrun
  cases hloop : forEachT (fun t x => stepT (fun pd => body pd x) t) xs (indentT t) with
  | none => simp [hloop] at hrun
  | some t2 =>
    simp only [hloop] at hrun
    have hseen := forEachT_seen _ xs (fun x _ a b hb => stepT_seen _ a b hb) (indentT t) t2 hloop
    have hext := forEachT_extends (fun t x => stepT (fun pd => body pd x) t) xs
      (t.pd.indendation + 1) 0 0
      (fun x _ a b _ hb => stepT_extends (fun pd => body pd x) (hbody x) 0 0 a b hb)
      (indentT t) t2 (by simp [indentT]) hloop
    have hd2 : t2.pd.indendation = t.pd.indendation + 1 := by
      rw [hext.1]; simp [indentT]
    rw [stepT_seen _ _ _ hrun]
    simp [dedentT, dedent, hd2, hseen, indentT]

theorem pointFile_resolves : ∀ m ∈ pointFile.messages, m.Resolves := by
  intro m hm
  simp only [pointFile, List.mem_cons, List.mem_singleton, List.not_mem_nil, or_false] at hm
  rcases hm with rfl | rfl
  · exact ⟨by simp [pointMessage, scalarField, typeName_mk], by simp [pointMessage]⟩
  · exact ⟨by simp [choiceMessage, plainOneof, typeName_mk],
      by simp [choiceMessage, plainOneof, typeName_mk]⟩

/-! ## Claims -/

/-- C1 (the code departs from the claim): for the message `M` with fields `x`
(declared number 7) and `y` (declared number 3), none in a oneof,
`writeMessage` emits two field lines in declaration order, but they end in
` = 0;` and ` = 1;`, the positions of the fields, where the claim requires
` = 7;` and ` = 3;`. -/
theorem writeMessage_field_line_prints_index :
    writeMessage (stateAt "" 0) numberedMessage =
      some (stateAt "message M \x7b\n    int32 x = 0;\n    string y = 1;\n\x7d\n\n" 0) :=
  rfl

/-- C2 (the code departs from the claim): started at depth 0 on the message
`Point` with `x` (int32, number 1) and `y` (int32, number 2), `writeMessage`
appends the block with the lines `int32 x = 0;` and `int32 y = 1;`, which is
not the block `message Point {\n    int32 x = 1;\n    int32 y = 2;\n}\n\n`
of the claim. -/
theorem writeMessage_point_block :
    writeMessage (stateAt "" 0) pointMessage =
      some (stateAt "message Point \x7b\n    int32 x = 0;\n    int32 y = 1;\n\x7d\n\n" 0) ∧
    (stateAt "message Point \x7b\n    int32 x = 0;\n    int32 y = 1;\n\x7d\n\n" 0).String ≠
      "message Point \x7b\n    int32 x = 1;\n    int32 y = 2;\n\x7d\n\n" :=
  ⟨rfl, by decide⟩

/-- C3 (the code departs from the claim): the reservation of the single number
7, `reserved 7;`, reaches `writeMessage` as the stored pair (7, 8), start
inclusive and end exclusive.  The equality test of the single-value branch
fails on it, and the code emits `reserved 7 to 8;` where the claim requires
`reserved 7;`. -/
theorem writeMessage_single_reserved_prints_two_bounds :
    writeMessage (stateAt "" 0) (reservingMessage [(7, 8)]) =
      some (stateAt "message M \x7b\n    reserved 7 to 8;\n\x7d\n\n" 0) ∧
    (stateAt "message M \x7b\n    reserved 7 to 8;\n\x7d\n\n" 0).String ≠
      "message M \x7b\n    reserved 7;\n\x7d\n\n" :=
  ⟨rfl, by decide⟩

/-- C5 (the code departs from the claim): for the proto3 field
`optional int32 x = 1;` the descriptor has the synthetic oneof `_x`, whose
sole member `x` carries the explicit-optional flag; the line `writeOneof`
emits for that member begins, after the indentation, with `optional `. -/
theorem writeOneof_synthetic_member_keeps_optional :
    writeOneof (stateAt "" 1) syntheticOneof =
      some (stateAt ("    oneof _x \x7b\n" ++
        ("        " ++ "optional " ++ "int32 x = 0;\n") ++ "    \x7d\n") 1) :=
  rfl

/-- C6: `writeField` appends the indentation, then `optional ` when the field
carries the explicit-optional flag, otherwise `repeated ` when its cardinality
is repeated, otherwise nothing, and directly after that the type name; so at
most one modifier is printed and a field that is both explicit-optional and
repeated gets only `optional `. -/
theorem writeField_modifier (pd : ProtoDefinition) (field : FieldDescriptor) (t : String)
    (hdepth : 0 ≤ pd.indendation) (ht : ∀ p : ProtoDefinition, writeType p field = some (write p t)) :
    writeField pd field = some (write pd (ind pd.indendation ++
      (if field.info.hasOptionalKeyword = true then "optional "
       else if field.info.cardinality = Cardinality.repeated then "repeated "
       else "") ++
      t ++ " " ++ field.info.name ++ " = " ++ formatInt field.info.index ++ ";\n")) := by
  unfold writeField
  rw [writeIndented_of_nonneg pd "" hdepth]
  simp only [ht, cardinality_toString_repeated]
  by_cases ho : field.info.hasOptionalKeyword = true
  · simp [ho, write_write, String.append_assoc]
  · by_cases hr : field.info.cardinality = Cardinality.repeated
    · simp [ho, hr, write_write, String.append_assoc]
    · simp [ho, hr, write_write, String.append_assoc]

/-- Witness of C6: a field that is both explicit-optional and repeated, at
depth 1, gets the single modifier `optional `. -/
theorem writeField_modifier_witness :
    writeField (stateAt "" 1)
        (.mk { name := "x", index := 0, number := 1, kind := "int32",
               cardinality := .repeated, hasOptionalKeyword := true,
               containingOneof := none, message := none } none none) =
      some (stateAt "    optional int32 x = 0;\n" 1) :=
  writeField_modifier (stateAt "" 1)
    (.mk { name := "x", index := 0, number := 1, kind := "int32",
           cardinality := .repeated, hasOptionalKeyword := true,
           containingOneof := none, message := none } none none)
    "int32" (by decide) (fun _ => rfl)

/-- C7 (the code departs from the claim): the map field
`map<string, Point> points = 1;` reaches `writeType` with kind text `message`
(no kind has the text `map`), the entry message `PointsEntry` as `Message()`,
and its key and value fields; `writeType` takes the message branch and appends
`PointsEntry`, not `map<string, Point>`. -/
theorem writeType_map_field_prints_entry_name :
    writeType (stateAt "" 0) pointsMapField = some (stateAt "PointsEntry" 0) ∧
    (stateAt "PointsEntry" 0).String ≠ "map<string, Point>" :=
  ⟨rfl, by decide⟩

/-- C8: `writeMethod` appends, after the indentation, `rpc <name>(`, then
`streaming ` exactly when the method is client-streaming, the input type name,
`) returns (`, then `streaming ` exactly when the method is server-streaming,
the output type name, `) {}` and a newline. -/
theorem writeMethod_line (pd : ProtoDefinition) (method : MethodDescriptor)
    (hdepth : 0 ≤ pd.indendation) :
    writeMethod pd method = some (write pd (ind pd.indendation ++ "rpc " ++ method.name ++ "(" ++
      (if method.isStreamingClient = true then "streaming " else "") ++ method.inputName ++
      ") returns (" ++ (if method.isStreamingServer = true then "streaming " else "") ++
      method.outputName ++ ") \x7b\x7d\n")) :=
  writeMethod_of_nonneg pd method hdepth

/-- Witness of C8: a method with both streaming flags set, at depth 1. -/
theorem writeMethod_line_witness :
    writeMethod (stateAt "" 1)
        { name := "M", inputName := "In", outputName := "Out",
          isStreamingClient := true, isStreamingServer := true } =
      some (stateAt "    rpc M(streaming In) returns (streaming Out) \x7b\x7d\n" 1) :=
  writeMethod_line (stateAt "" 1)
    { name := "M", inputName := "In", outputName := "Out",
      isStreamingClient := true, isStreamingServer := true } (by decide)

/-- C9: for a public import of path `p`, `writeImport` leaves the state as it
was except that the buffer has gained exactly the word import, the word
public, the path in double quotes, a semicolon and a newline; for one that is
not public the buffer has gained exactly the word import, the path in double
quotes, a semicolon and a newline. -/
theorem writeImport_line (pd : ProtoDefinition) (p : String) :
    writeImport pd { path := p, isPublic := true } =
      { pd with builder := pd.builder ++ "import public \"" ++ p ++ "\";\n" } ∧
    writeImport pd { path := p, isPublic := false } =
      { pd with builder := pd.builder ++ "import \"" ++ p ++ "\";\n" } := by
  constructor <;> simp [writeImport, write, String.append_assoc]

/-- Witness of C9: the public and the plain import of `path/to/file.proto`,
written to the empty buffer. -/
theorem writeImport_line_witness :
    writeImport (stateAt "" 0) { path := "path/to/file.proto", isPublic := true } =
      stateAt "import public \"path/to/file.proto\";\n" 0 ∧
    writeImport (stateAt "" 0) { path := "path/to/file.proto", isPublic := false } =
      stateAt "import \"path/to/file.proto\";\n" 0 :=
  writeImport_line (stateAt "" 0) "path/to/file.proto"

/-- C10: started at depth 0, `writeEnum` appends `enum <Name> {` and a newline,
then for each value in declaration order the line of four spaces,
`<value> = <number>;` (the number in signed decimal) and a newline, then `}`
and two newlines. -/
theorem writeEnum_depth_zero (pd : ProtoDefinition) (enum : EnumDescriptor)
    (hdepth : pd.indendation = 0) :
    writeEnum pd enum = some (write pd ("enum " ++ enum.name ++ " \x7b\n" ++
      concat (enum.values.map (fun v => "    " ++ v.name ++ " = " ++ formatInt v.number ++
        ";\n")) ++ "\x7d\n\n")) := by
  have h := writeEnum_of_nonneg pd enum (by omega)
  rw [hdepth] at h
  have h0 : ind 0 = "" := by decide
  have h1 : ind (0 + 1) = "    " := by decide
  rw [h0, h1] at h
  simpa using h

/-- Witness of C10: the enum `Color` with `RED = 0` and `GREEN = 1`. -/
theorem writeEnum_depth_zero_witness :
    writeEnum (stateAt "" 0)
        { name := "Color", values := [{ name := "RED", number := 0 },
                                     { name := "GREEN", number := 1 }] } =
      some (stateAt "enum Color \x7b\n    RED = 0;\n    GREEN = 1;\n\x7d\n\n" 0) :=
  writeEnum_depth_zero (stateAt "" 0)
    { name := "Color", values := [{ name := "RED", number := 0 },
                                 { name := "GREEN", number := 1 }] } rfl

/-- C11 (the code departs from the claim): for the message `M` with reserved
names `foo` and `bar`, `writeMessage` emits one line per name in the stored
order, but the names are written bare, as `reserved foo;` and `reserved bar;`,
not enclosed in double quotes as the claim requires. -/
theorem writeMessage_reserved_name_unquoted :
    writeMessage (stateAt "" 0) (namingMessage ["foo", "bar"]) =
      some (stateAt "message M \x7b\n    reserved foo;\n    reserved bar;\n\x7d\n\n" 0) ∧
    (stateAt "message M \x7b\n    reserved foo;\n    reserved bar;\n\x7d\n\n" 0).String ≠
      "message M \x7b\n    reserved \"foo\";\n    reserved \"bar\";\n\x7d\n\n" :=
  ⟨rfl, by decide⟩

/-- C12: the body `writeMessage` emits between `message <Name> {` and the
closing `}` is, in this order, the lines of the reserved names, the lines of
the reserved ranges, the lines of the fields with no containing oneof in
declaration order, and the blocks of the oneofs in declaration order; each
line or block is what the loop body (`writeReservedName`,
`writeReservedRange`, `writeField`, `writeOneof`) appends for that element. -/
theorem writeMessage_body_order (pd : ProtoDefinition) (m : MessageDescriptor)
    (hdepth : 0 ≤ pd.indendation) (hres : m.Resolves) :
    writeMessage pd m = some (write pd ("message " ++ m.name ++ " \x7b\n" ++
      (concat (m.reservedNames.map (fun n => ind (pd.indendation + 1) ++ "reserved " ++ n ++
          ";\n")) ++
       concat (m.reservedRanges.map (fun r => ind (pd.indendation + 1) ++ rangeText r)) ++
       concat ((m.fields.filter (fun f => f.info.containingOneof.isNone)).map
          (fun f => ind (pd.indendation + 1) ++ fieldText f)) ++
       concat (m.oneofs.map (oneofText (pd.indendation + 1)))) ++
      ind pd.indendation ++ "\x7d\n\n")) ∧
    (∀ p : ProtoDefinition, p.indendation = pd.indendation + 1 →
      (∀ n ∈ m.reservedNames, writeReservedName p n =
        some (write p (ind (pd.indendation + 1) ++ "reserved " ++ n ++ ";\n"))) ∧
      (∀ r ∈ m.reservedRanges, writeReservedRange p r =
        some (write p (ind (pd.indendation + 1) ++ rangeText r))) ∧
      (∀ f ∈ m.fields.filter (fun f => f.info.containingOneof.isNone), writeField p f =
        some (write p (ind (pd.indendation + 1) ++ fieldText f))) ∧
      (∀ o ∈ m.oneofs, writeOneof p o = some (write p (oneofText (pd.indendation + 1) o)))) := by
  refine ⟨?_, ?_⟩
  · rw [writeMessage_of_resolves pd m hdepth hres]
    simp [messageText, directFields, String.append_assoc]
  · intro p hp
    have hp0 : 0 ≤ p.indendation := by omega
    refine ⟨?_, ?_, ?_, ?_⟩
    · intro n _
      rw [writeReservedName_of_nonneg p n hp0, hp]
    · intro r _
      rw [writeReservedRange_of_nonneg p r hp0, hp]
    · intro f hf
      have hf2 := List.mem_filter.mp hf
      have hnone : f.info.containingOneof = none := by
        cases hc : f.info.containingOneof with
        | none => rfl
        | some o => simp [hc] at hf2
      rw [writeField_of_typeName p f hp0 (hres.1 f hf2.1 hnone), hp]
    · intro o ho
      rw [writeOneof_of_resolves p o hp0 (hres.2 o ho), hp]

/-- Witness of C12: a message with a reserved name, a reserved range, a field
outside every oneof and a oneof, rendered from depth 0. -/
theorem writeMessage_body_order_witness :
    writeMessage (stateAt "" 0) mixedMessage =
      some (stateAt ("message Q \x7b\n" ++ "    reserved foo;\n" ++ "    reserved 1 to 3;\n" ++
        "    bool z = 0;\n" ++
        "    oneof choice \x7b\n        string a = 1;\n        int32 b = 2;\n    \x7d\n" ++
        "\x7d\n\n") 0) :=
  (writeMessage_body_order (stateAt "" 0) mixedMessage (by decide)
    ⟨by simp [mixedMessage, scalarField, choiceField, typeName_mk],
     by simp [mixedMessage, choiceField, typeName_mk]⟩).1

/-- C13: `writeFileDescriptor` returns a state whose buffer is the start buffer
followed by, in this order, the syntax declaration, the package declaration,
the lines of the imports in declaration order, one newline exactly when the
file has at least one import, the blocks of the services, the blocks of the
messages and the blocks of the enums; each line or block is the text that
`writeImport`, `writeService`, `writeMessage` or `writeEnum` adds to the
buffer for that element. -/
theorem writeFileDescriptor_document (pd : ProtoDefinition) (hdepth : 0 ≤ pd.indendation)
    (hres : ∀ m ∈ pd.descriptor.messages, m.Resolves) :
    (∃ q : ProtoDefinition, writeFileDescriptor pd = some q ∧
      q.builder = pd.builder ++ (
        ("syntax = \"" ++ pd.descriptor.dialect ++ "\"\n\n") ++
        ("package " ++ fullNameName pd.descriptor.package ++ ";\n\n") ++
        concat (pd.descriptor.imports.map importText) ++
        (if 0 < pd.descriptor.imports.length then "\n" else "") ++
        concat (pd.descriptor.services.map (serviceText pd.indendation)) ++
        concat (pd.descriptor.messages.map (messageText pd.indendation)) ++
        concat (pd.descriptor.enums.map (enumText pd.indendation)))) ∧
    (∀ p : ProtoDefinition, p.indendation = pd.indendation →
      (∀ i : FileImport, (writeImport p i).builder = p.builder ++ importText i) ∧
      (∀ s ∈ pd.descriptor.services, ∃ q : ProtoDefinition, writeService p s = some q ∧
        q.builder = p.builder ++ serviceText pd.indendation s) ∧
      (∀ m ∈ pd.descriptor.messages, ∃ q : ProtoDefinition, writeMessage p m = some q ∧
        q.builder = p.builder ++ messageText pd.indendation m) ∧
      (∀ e ∈ pd.descriptor.enums, ∃ q : ProtoDefinition, writeEnum p e = some q ∧
        q.builder = p.builder ++ enumText pd.indendation e)) := by
  refine ⟨⟨_, writeFileDescriptor_of_resolves pd hdepth hres, ?_⟩, ?_⟩
  · simp only [write_builder, fileText, headerText, String.append_assoc, gt_iff_lt]
  · intro p hp
    have hp0 : 0 ≤ p.indendation := by omega
    refine ⟨fun i => by rw [writeImport_eq]; rfl, ?_, ?_, ?_⟩
    · intro s _
      exact ⟨_, writeService_of_nonneg p s hp0, by rw [hp]; rfl⟩
    · intro m hm
      exact ⟨_, writeMessage_of_resolves p m hp0 (hres m hm), by rw [hp]; rfl⟩
    · intro e _
      exact ⟨_, writeEnum_eq_enumText p e hp0, by rw [hp]; rfl⟩

/-- Witness of C13: the file `point.proto` with package `pkg`, two imports, a
service, the messages `Point` and `Msg` and the enum `Color`, rendered from
the fresh state; and the same file without its imports, where no blank line
follows the package declaration. -/
theorem writeFileDescriptor_document_witness :
    (∃ q : ProtoDefinition, writeFileDescriptor (freshState pointFile) = some q ∧
      q.builder = "" ++ ("syntax = \"proto3\"\n\n" ++ "package pkg;\n\n" ++
        "import public \"other.proto\";\nimport \"google/protobuf/empty.proto\";\n" ++ "\n" ++
        "service S \x7b\n    rpc M(In) returns (streaming Out) \x7b\x7d\n\x7d\n\n" ++
        ("message Point \x7b\n    int32 x = 0;\n    int32 y = 1;\n\x7d\n\n" ++
         "message Msg \x7b\n    oneof choice \x7b\n        string a = 0;\n" ++
         "        int32 b = 1;\n    \x7d\n\x7d\n\n") ++
        "enum Color \x7b\n    RED = 0;\n    GREEN = 1;\n\x7d\n\n")) ∧
    (∃ q : ProtoDefinition,
      writeFileDescriptor (freshState { pointFile with imports := [] }) = some q ∧
      q.builder = "" ++ ("syntax = \"proto3\"\n\n" ++ "package pkg;\n\n" ++
        "service S \x7b\n    rpc M(In) returns (streaming Out) \x7b\x7d\n\x7d\n\n" ++
        ("message Point \x7b\n    int32 x = 0;\n    int32 y = 1;\n\x7d\n\n" ++
         "message Msg \x7b\n    oneof choice \x7b\n        string a = 0;\n" ++
         "        int32 b = 1;\n    \x7d\n\x7d\n\n") ++
        "enum Color \x7b\n    RED = 0;\n    GREEN = 1;\n\x7d\n\n")) :=
  ⟨(writeFileDescriptor_document (freshState pointFile) (by decide)
      pointFile_resolves).1,
   (writeFileDescriptor_document (freshState { pointFile with imports := [] }) (by decide)
      pointFile_resolves).1⟩

/-- C14 (the code departs from the claim): the top-level message `Msg` with the
proto3 field `optional int32 x = 1;` has the synthetic oneof `_x` with the
sole member `x`.  The oneof block is nested in the braces of the message, but
the member line begins with eight spaces followed by `optional `, not directly
by the type name `int32`. -/
theorem writeMessage_synthetic_oneof_member_line :
    writeMessage (stateAt "" 0) optionalFieldMessage =
      some (stateAt ("message Msg \x7b\n" ++ "    oneof _x \x7b\n" ++
        ("        " ++ "optional " ++ "int32" ++ " x = 0;\n") ++
        "    \x7d\n" ++ "\x7d\n\n") 0) :=
  rfl

/-- C15: construction is all-or-nothing, for any decoder `unmarshal` and any
descriptor builder `newFile`.  `NewFromBytes` returns an error exactly when
decoding fails or building fails; `NewFromDescriptor` returns an error exactly
when building fails; when decoding and building succeed with a descriptor
graph, a definition is returned whose text is the whole rendered document;
and whenever a definition is returned, it is the state `writeFileDescriptor`
returns from the fresh state, never an intermediate one. -/
theorem construction_all_or_nothing {Payload Proto : Type}
    (unmarshal : Payload → Except String Proto)
    (newFile : Proto → Except String FileDescriptor) (payload : Payload) (pb : Proto) :
    ((∃ e, NewFromBytes unmarshal newFile payload = some (.error e)) ↔
      ((∃ e, unmarshal payload = .error e) ∨
       (∃ pb1 e, unmarshal payload = .ok pb1 ∧ newFile pb1 = .error e))) ∧
    ((∃ e, NewFromDescriptor newFile pb = some (.error e)) ↔ (∃ e, newFile pb = .error e)) ∧
    (∀ d : FileDescriptor, newFile pb = .ok d → d.WellFormed →
      ∃ pd, NewFromDescriptor newFile pb = some (.ok pd) ∧ pd.String = fileText 0 d ∧
        (unmarshal payload = .ok pb → NewFromBytes unmarshal newFile payload = some (.ok pd))) ∧
    (∀ pd : ProtoDefinition, NewFromDescriptor newFile pb = some (.ok pd) →
      ∃ d, newFile pb = .ok d ∧ writeFileDescriptor (freshState d) = some pd) := by
  have hdesc : ∀ pb1 : Proto, (∃ e, NewFromDescriptor newFile pb1 = some (.error e)) ↔
      (∃ e, newFile pb1 = .error e) := by
    intro pb1
    unfold NewFromDescriptor
    cases hn : newFile pb1 with
    | error e => simp
    | ok d =>
      simp only []
      cases writeFileDescriptor
        { builder := "", indendation := 0, descriptor := d, filename := d.path } <;> simp
  refine ⟨?_, hdesc pb, ?_, ?_⟩
  · unfold NewFromBytes
    cases hu : unmarshal payload with
    | error e => simp
    | ok pb1 =>
      simp only [hdesc pb1]
      constructor
      · rintro ⟨e, he⟩
        exact Or.inr ⟨pb1, e, rfl, he⟩
      · rintro (⟨e, he⟩ | ⟨pb2, e, hpb, he⟩)
        · cases he
        · cases hpb
          exact ⟨e, he⟩
  · intro d hd hwf
    have hrun := writeFileDescriptor_of_resolves (freshState d) (by simp [freshState])
      (fun m hm => resolves_of_wellFormed m (hwf m hm))
    refine ⟨write (freshState d) (fileText 0 d), ?_, ?_, ?_⟩
    · unfold NewFromDescriptor
      simp only [hd]
      have hrun2 : writeFileDescriptor
          { builder := "", indendation := 0, descriptor := d, filename := d.path } =
          some (write (freshState d) (fileText 0 d)) := hrun
      simp [hrun2]
    · simp [ProtoDefinition.String, freshState]
    · intro hu
      unfold NewFromBytes NewFromDescriptor
      simp only [hu, hd]
      have hrun2 : writeFileDescriptor
          { builder := "", indendation := 0, descriptor := d, filename := d.path } =
          some (write (freshState d) (fileText 0 d)) := hrun
      simp [hrun2]
  · intro pd hpd
    unfold NewFromDescriptor at hpd
    cases hn : newFile pb with
    | error e => simp [hn] at hpd
    | ok d =>
      simp only [hn] at hpd
      cases hw : writeFileDescriptor
          { builder := "", indendation := 0, descriptor := d, filename := d.path } with
      | none => simp [hw] at hpd
      | some q =>
        simp only [hw, Option.some.injEq, Except.ok.injEq] at hpd
        exact ⟨d, rfl, by rw [← hpd]; exact hw⟩

/-- Witness of C15: with the sample decoder and builder, the empty payload
gives the decoding error, the payload `bad` gives the building error, and any
other payload gives the definition holding the whole document of the sample
file. -/
theorem construction_all_or_nothing_witness :
    NewFromBytes sampleUnmarshal sampleNewFile "" =
      some (.error "Couldn't unmarshal proto: unexpected EOF") ∧
    NewFromBytes sampleUnmarshal sampleNewFile "bad" =
      some (.error "Couldn't create FileDescriptor: invalid structure") ∧
    (∃ pd, NewFromDescriptor sampleNewFile "sample" = some (.ok pd) ∧
      pd.String = fileText 0 sampleFile ∧
      (sampleUnmarshal "payload" = .ok "sample" →
        NewFromBytes sampleUnmarshal sampleNewFile "payload" = some (.ok pd))) :=
  ⟨rfl, rfl,
   (construction_all_or_nothing sampleUnmarshal sampleNewFile "payload" "sample").2.2.1
     sampleFile rfl sampleFile_wellFormed⟩

/-- C17: rendering is total.  For a descriptor graph (every field of kind
`message` has its referenced message, every field of kind `map` has a key
field and a value field, recursively) and a start depth that is not negative,
`writeFileDescriptor` returns a state, without a panic, whose text is the
start buffer followed by the whole document; `writeType` returns on every
field of a descriptor graph; and the indexed loop
`for i := 0; i < Len(); i++ { body(Get(i)) }` never reaches an index out of
bounds: it is the traversal of the list. -/
theorem writeFileDescriptor_total (pd : ProtoDefinition) (hdepth : 0 ≤ pd.indendation)
    (hwf : pd.descriptor.WellFormed) :
    (∃ q, writeFileDescriptor pd = some q ∧
      q.String = pd.builder ++ fileText pd.indendation pd.descriptor) ∧
    (∀ (f : FieldDescriptor) (p : ProtoDefinition), f.wellFormed = true →
      ∃ t, writeType p f = some (write p t)) ∧
    (∀ (α : Type) (body : ProtoDefinition → α → Option ProtoDefinition) (xs : List α)
      (p : ProtoDefinition), forIndex body xs 0 p = forEach body xs p) := by
  refine ⟨⟨write pd (fileText pd.indendation pd.descriptor), ?_, rfl⟩, ?_, ?_⟩
  · exact writeFileDescriptor_of_resolves pd hdepth
      (fun m hm => resolves_of_wellFormed m (hwf m hm))
  · intro f p hf
    obtain ⟨t, ht⟩ := Option.ne_none_iff_exists'.mp (typeName_of_wellFormed f hf)
    exact ⟨t, by rw [writeType_eq, ht]; rfl⟩
  · intro α body xs p
    rw [forIndex_eq_forEach_drop body xs (xs.length - 0) 0 p rfl]
    rfl

/-- Witness of C17: a file whose only message has a map field from `string`
to the message `Point`, rendered from the fresh state. -/
theorem writeFileDescriptor_total_witness :
    ∃ q, writeFileDescriptor (freshState mapFile) = some q ∧
      q.String = "" ++ fileText 0 mapFile :=
  (writeFileDescriptor_total (freshState mapFile) (by decide) (by
    intro m hm
    simp only [freshState, mapFile, List.mem_singleton] at hm
    subst hm
    exact ⟨by simp [mapField, scalarField, wellFormed_mk], by simp⟩)).1

/-- C20: every document `writeFileDescriptor` returns begins with
`syntax = "s"` and two newlines, with no semicolon, then `package q;` and two
newlines, where `q` is the package name after its last dot: the whole name
when it has no dot, and `b` when the name is `a.b` with no dot in `b`; so two
packages that differ only before the last dot give the same package line.
From a start depth that is not negative and a descriptor graph a document is
returned. -/
theorem writeFileDescriptor_header (pd : ProtoDefinition) :
    (∀ q, writeFileDescriptor pd = some q →
      ∃ rest, q.String = pd.builder ++
        ("syntax = \"" ++ pd.descriptor.dialect ++ "\"\n\n" ++
         ("package " ++ fullNameName pd.descriptor.package ++ ";\n\n")) ++ rest) ∧
    (0 ≤ pd.indendation → pd.descriptor.WellFormed → ∃ q, writeFileDescriptor pd = some q) ∧
    ('.' ∉ pd.descriptor.package.data →
      fullNameName pd.descriptor.package = pd.descriptor.package) ∧
    (∀ a b : String, pd.descriptor.package = a ++ "." ++ b → '.' ∉ b.data →
      fullNameName pd.descriptor.package = b) ∧
    (∀ a1 a2 b : String, '.' ∉ b.data →
      "package " ++ fullNameName (a1 ++ "." ++ b) ++ ";\n\n" =
        "package " ++ fullNameName (a2 ++ "." ++ b) ++ ";\n\n") := by
  refine ⟨?_, ?_, ?_, ?_, ?_⟩
  · intro q hq
    obtain ⟨rest, hrest⟩ := writeFileDescriptor_appends pd q hq
    exact ⟨rest, by
      rw [hrest]
      simp only [ProtoDefinition.String, write_builder, headerText, String.append_assoc]⟩
  · intro hdepth hwf
    exact ⟨_, writeFileDescriptor_of_resolves pd hdepth
      (fun m hm => resolves_of_wellFormed m (hwf m hm))⟩
  · exact fullNameName_of_no_dot _
  · intro a b hp hb
    rw [hp]
    exact fullNameName_append_dot a b hb
  · intro a1 a2 b hb
    rw [fullNameName_append_dot a1 b hb, fullNameName_append_dot a2 b hb]

/-- Witness of C20: the sample file has package `foo.pkg`; its document begins
with the syntax line and the package line `package pkg;`. -/
theorem writeFileDescriptor_header_witness :
    ∃ q rest, writeFileDescriptor (freshState sampleFile) = some q ∧
      q.String = "" ++ ("syntax = \"proto3\"\n\n" ++ "package pkg;\n\n") ++ rest := by
  have hrun : writeFileDescriptor (freshState sampleFile) =
      some (write (freshState sampleFile) (fileText 0 sampleFile)) :=
    writeFileDescriptor_of_resolves (freshState sampleFile) (by decide)
      (fun m hm => resolves_of_wellFormed m (sampleFile_wellFormed m hm))
  obtain ⟨rest, hrest⟩ := (writeFileDescriptor_header (freshState sampleFile)).1 _ hrun
  exact ⟨_, rest, hrun, hrest⟩

/-- C18: indentation discipline.  Each of `writeService`, `writeMessage`,
`writeEnum` and `writeOneof` returns with the indentation counter equal to its
value on entry, and in `writeService`, `writeEnum` and `writeOneof` the
counter takes exactly two new values, one above the entry value and then the
entry value again; `writeMethod`, `writeField`, `writeType` and `writeImport`
return with the counter unchanged; each of these functions does return when
the depth is not negative and the types it prints resolve; and a full
`writeFileDescriptor` run from depth 0 on a descriptor graph returns, every
value the counter takes during the run lies between 0 and 2, and the counter
is 0 at the end. -/
theorem indentation_discipline (pd : ProtoDefinition) (hdepth : pd.indendation = 0)
    (hwf : pd.descriptor.WellFormed) :
    ((∀ (p q : ProtoDefinition) (x : ServiceDescriptor), writeService p x = some q →
        q.indendation = p.indendation) ∧
     (∀ (p q : ProtoDefinition) (x : MessageDescriptor), writeMessage p x = some q →
        q.indendation = p.indendation) ∧
     (∀ (p q : ProtoDefinition) (x : EnumDescriptor), writeEnum p x = some q →
        q.indendation = p.indendation) ∧
     (∀ (p q : ProtoDefinition) (x : OneofDescriptor), writeOneof p x = some q →
        q.indendation = p.indendation)) ∧
    ((∀ (t t1 : Traced) (x : ServiceDescriptor), writeServiceT t x = some t1 →
        t1.seen = t.pd.indendation :: (t.pd.indendation + 1) :: t.seen) ∧
     (∀ (t t1 : Traced) (x : EnumDescriptor), writeEnumT t x = some t1 →
        t1.seen = t.pd.indendation :: (t.pd.indendation + 1) :: t.seen) ∧
     (∀ (t t1 : Traced) (x : OneofDescriptor), writeOneofT t x = some t1 →
        t1.seen = t.pd.indendation :: (t.pd.indendation + 1) :: t.seen)) ∧
    ((∀ (p q : ProtoDefinition) (x : MethodDescriptor), writeMethod p x = some q →
        q.indendation = p.indendation) ∧
     (∀ (p q : ProtoDefinition) (x : FieldDescriptor), writeField p x = some q →
        q.indendation = p.indendation) ∧
     (∀ (p q : ProtoDefinition) (x : FieldDescriptor), writeType p x = some q →
        q.indendation = p.indendation) ∧
     (∀ (p : ProtoDefinition) (x : FileImport),
        (writeImport p x).indendation = p.indendation)) ∧
    ((∀ (p : ProtoDefinition) (x : ServiceDescriptor), 0 ≤ p.indendation →
        ∃ q, writeService p x = some q) ∧
     (∀ (p : ProtoDefinition) (x : MessageDescriptor), 0 ≤ p.indendation → x.Resolves →
        ∃ q, writeMessage p x = some q) ∧
     (∀ (p : ProtoDefinition) (x : EnumDescriptor), 0 ≤ p.indendation →
        ∃ q, writeEnum p x = some q) ∧
     (∀ (p : ProtoDefinition) (x : OneofDescriptor), 0 ≤ p.indendation →
        (∀ f ∈ x.fields, typeName f ≠ none) → ∃ q, writeOneof p x = some q) ∧
     (∀ (p : ProtoDefinition) (x : MethodDescriptor), 0 ≤ p.indendation →
        ∃ q, writeMethod p x = some q) ∧
     (∀ (p : ProtoDefinition) (x : FieldDescriptor), 0 ≤ p.indendation → typeName x ≠ none →
        ∃ q, writeField p x = some q) ∧
     (∀ (p : ProtoDefinition) (x : FieldDescriptor), x.wellFormed = true →
        ∃ q, writeType p x = some q)) ∧
    (∃ t1 : Traced, writeFileDescriptorT (Traced.start pd) = some t1 ∧
      writeFileDescriptor pd = some t1.pd ∧
      (∀ v ∈ t1.seen, 0 ≤ v ∧ v ≤ 2) ∧ t1.pd.indendation = 0) := by
  have keep : ∀ p q : ProtoDefinition, (∃ s, q = write p s) → q.indendation = p.indendation :=
    fun p q ⟨s, hs⟩ => by rw [hs]; rfl
  refine ⟨⟨?_, ?_, ?_, ?_⟩, ⟨?_, ?_, ?_⟩, ⟨?_, ?_, ?_, ?_⟩,
    ⟨fun p x h => ⟨_, writeService_of_nonneg p x h⟩,
     fun p x h hx => ⟨_, writeMessage_of_resolves p x h hx⟩,
     fun p x h => ⟨_, writeEnum_of_nonneg p x h⟩,
     fun p x h hx => ⟨_, writeOneof_of_resolves p x h hx⟩,
     fun p x h => ⟨_, writeMethod_of_nonneg p x h⟩,
     fun p x h hx => ⟨_, writeField_of_typeName p x h hx⟩,
     fun p x hx => ?_⟩, ?_⟩
  · exact fun p q x h => keep p q (writeService_appends p x q h)
  · exact fun p q x h => keep p q (writeMessage_appends p x q h)
  · exact fun p q x h => keep p q (writeEnum_appends p x q h)
  · exact fun p q x h => keep p q (writeOneof_appends p x q h)
  · intro t t1 x h
    unfold writeServiceT at h
    exact blockT_seen writeMethod (fun m p q => writeMethod_appends p m q) x.methods
      (Traced.mk (write (write (write t.pd "service ") x.name) " \x7b\n") t.seen) _ t1 h
  · intro t t1 x h
    unfold writeEnumT at h
    exact blockT_seen writeEnumValue (fun m p q => writeEnumValue_appends p m q) x.values
      (Traced.mk (write (write (write t.pd "enum ") x.name) " \x7b\n") t.seen) _ t1 h
  · intro t t1 x h
    unfold writeOneofT at h
    cases hs : stepT (fun pd => writeIndented pd "") t with
    | none => simp [hs] at h
    | some t2 =>
      simp only [hs] at h
      have h2 := stepT_extends (fun pd => writeIndented pd "")
        (fun p q => writeIndented_appends p "" q) 0 0 t t2 hs
      have h3 := blockT_seen writeField (fun m p q => writeField_appends p m q) x.fields
        (Traced.mk (write (write (write t2.pd "oneof ") x.name) " \x7b\n") t2.seen) _ t1 h
      rw [h3]
      simp [h2.1, stepT_seen _ _ _ hs]
  · exact fun p q x h => keep p q (writeMethod_appends p x q h)
  · exact fun p q x h => keep p q (writeField_appends p x q h)
  · exact fun p q x h => keep p q (writeType_appends p x q h)
  · exact fun p x => by rw [writeImport_eq]; rfl
  · obtain ⟨t, ht⟩ := Option.ne_none_iff_exists'.mp (typeName_of_wellFormed x hx)
    exact ⟨write p t, by rw [writeType_eq, ht]; rfl⟩
  · have hrun := writeFileDescriptor_of_resolves pd (by omega)
      (fun m hm => resolves_of_wellFormed m (hwf m hm))
    have herase := writeFileDescriptorT_pd (Traced.start pd)
    cases hT : writeFileDescriptorT (Traced.start pd) with
    | none =>
      rw [hT] at herase
      have hpd : (Traced.start pd).pd = pd := rfl
      rw [hpd, hrun] at herase
      simp at herase
    | some t1 =>
      rw [hT] at herase
      have hpd : (Traced.start pd).pd = pd := rfl
      rw [hpd] at herase
      simp only [Option.map_some'] at herase
      obtain ⟨hend, hseen⟩ := writeFileDescriptorT_extends (Traced.start pd) t1 hT
      simp only [Traced.start, hdepth, List.mem_singleton] at hend hseen
      refine ⟨t1, rfl, herase.symm, ?_, hend⟩
      intro v hv
      rcases hseen v hv with hv1 | hr
      · omega
      · omega

/-- Witness of C18: the run on the sample file from the fresh state. -/
theorem indentation_discipline_witness :
    ∃ t1 : Traced, writeFileDescriptorT (Traced.start (freshState sampleFile)) = some t1 ∧
      writeFileDescriptor (freshState sampleFile) = some t1.pd ∧
      (∀ v ∈ t1.seen, 0 ≤ v ∧ v ≤ 2) ∧ t1.pd.indendation = 0 :=
  (indentation_discipline (freshState sampleFile) rfl sampleFile_wellFormed).2.2.2.2

/-- C19: every field is rendered exactly once.  For a message whose oneof
member lists, taken together, are a rearrangement of the fields that have a
containing oneof, the field lines `writeMessage` emits are one line for each
field with no containing oneof and one line for each member of each oneof;
their number is the number of fields of the message, and no field has both a
direct line and a member line. -/
theorem writeMessage_each_field_once (pd : ProtoDefinition) (m : MessageDescriptor)
    (hdepth : 0 ≤ pd.indendation) (hres : m.Resolves)
    (hpart : List.Perm (oneofMembers m) (oneofFields m)) :
    writeMessage pd m = some (write pd ("message " ++ m.name ++ " \x7b\n" ++
      concat (m.reservedNames.map (fun n => ind (pd.indendation + 1) ++ "reserved " ++ n ++
        ";\n")) ++
      concat (m.reservedRanges.map (fun r => ind (pd.indendation + 1) ++ rangeText r)) ++
      concat ((directFields m).map (fun f => ind (pd.indendation + 1) ++ fieldText f)) ++
      concat (m.oneofs.map (fun o => ind (pd.indendation + 1) ++ "oneof " ++ o.name ++
        " \x7b\n" ++
        concat (o.fields.map (fun f => ind (pd.indendation + 1 + 1) ++ fieldText f)) ++
        ind (pd.indendation + 1) ++ "\x7d\n")) ++
      ind pd.indendation ++ "\x7d\n\n")) ∧
    (directFields m).length + (m.oneofs.map (fun o => o.fields.length)).sum = m.fields.length ∧
    (∀ f ∈ directFields m, ∀ o ∈ m.oneofs, f ∉ o.fields) := by
  refine ⟨?_, ?_, ?_⟩
  · rw [writeMessage_of_resolves pd m hdepth hres]
    unfold messageText
    delta oneofText
    simp [String.append_assoc]
  · have hlen := hpart.length_eq
    have hsplit := m.fields.length_eq_length_filter_add (fun f => f.info.containingOneof.isSome)
    simp only [oneofMembers, oneofFields, List.length_flatten, List.map_map] at hlen
    have hdirect : directFields m =
        m.fields.filter (fun f => !f.info.containingOneof.isSome) := by
      simp [directFields]
    have hsum : (m.oneofs.map (fun o => o.fields.length)).sum =
        (m.oneofs.map (List.length ∘ fun o => o.fields)).sum := rfl
    rw [hdirect, hsum, hlen, hsplit]
    omega
  · intro f hf o ho hmem
    have hnone : f.info.containingOneof.isNone = true := (List.mem_filter.mp hf).2
    have hin : f ∈ oneofMembers m := by
      simp only [oneofMembers, List.mem_flatten, List.mem_map]
      exact ⟨o.fields, ⟨o, ho, rfl⟩, hmem⟩
    have hsome : f.info.containingOneof.isSome = true :=
      (List.mem_filter.mp (hpart.mem_iff.mp hin)).2
    cases hc : f.info.containingOneof <;> simp [hc] at hnone hsome

/-- Witness of C19: the message `Q` has three fields, one outside every oneof
and two that are the members of its oneof; three field lines are emitted. -/
theorem writeMessage_each_field_once_witness :
    (directFields mixedMessage).length +
        (mixedMessage.oneofs.map (fun o => o.fields.length)).sum = 3 ∧
    writeMessage (stateAt "" 0) mixedMessage =
      some (stateAt ("message Q \x7b\n    reserved foo;\n    reserved 1 to 3;\n" ++
        "    bool z = 0;\n" ++
        "    oneof choice \x7b\n        string a = 1;\n        int32 b = 2;\n    \x7d\n" ++
        "\x7d\n\n") 0) :=
  have h := writeMessage_each_field_once (stateAt "" 0) mixedMessage (by decide)
    ⟨by simp [mixedMessage, scalarField, choiceField, typeName_mk],
     by simp [mixedMessage, choiceField, typeName_mk]⟩
    (List.Perm.refl _)
  ⟨h.2.1, h.1⟩

end Protodump
